import Mathlib

/-!
# domwatch: inventory diff, merge, persistence and notification chunking

A shallow embedding of `internal/cli/cli.go`.  Go strings are byte sequences, so a
string is a list of bytes; `len` is `List.length`, `+` is `++`, and `<` on strings is
the byte-wise lexicographic order.  The parts of the Go standard library that the
program calls (`strings.TrimSpace`, `strings.HasPrefix`, `bufio.Scanner` with its
default line splitter, `sort.Strings`) are transcribed next to the code that uses
them.
-/

namespace DomWatch

/-! ## Strings -/

/-- A byte. -/
abbrev Byte := Fin 256

/-- A Go string: an immutable sequence of bytes. -/
abbrev GoString := List Byte

/-- UTF-8 encoding of one character, used to write string constants of the source. -/
def utf8Char (c : Char) : List Byte :=
  let n := c.toNat
  if n < 0x80 then [Fin.ofNat n]
  else if n < 0x800 then [Fin.ofNat (0xC0 + n / 64), Fin.ofNat (0x80 + n % 64)]
  else if n < 0x10000 then
    [Fin.ofNat (0xE0 + n / 4096), Fin.ofNat (0x80 + n / 64 % 64), Fin.ofNat (0x80 + n % 64)]
  else
    [Fin.ofNat (0xF0 + n / 262144), Fin.ofNat (0x80 + n / 4096 % 64),
      Fin.ofNat (0x80 + n / 64 % 64), Fin.ofNat (0x80 + n % 64)]

/-- The bytes of a string constant. -/
def str (s : String) : GoString := s.data.flatMap utf8Char

/-! ## `unicode/utf8` and `unicode.IsSpace` -/

/-- Constant `utf8.RuneError`, the replacement rune U+FFFD. -/
def RuneError : Nat := 0xFFFD

/-- Constant `utf8.RuneSelf`: bytes below it are runes of their own. -/
def RuneSelf : Nat := 0x80

/-- Constant `utf8.UTFMax`: the longest encoding has four bytes. -/
def UTFMax : Nat := 4

/-- Table `utf8.first`: the class of a leading byte.  `0xF0` is ASCII (`as`), `0xF1`
is an invalid leading byte (`xx`); otherwise the low three bits are the length of the
encoding and the high four bits select the range accepted for the second byte. -/
def first (b : Byte) : Nat :=
  if b.val < 0x80 then 0xF0
  else if b.val < 0xC2 then 0xF1
  else if b.val < 0xE0 then 0x02
  else if b.val = 0xE0 then 0x13
  else if b.val < 0xED then 0x03
  else if b.val = 0xED then 0x23
  else if b.val < 0xF0 then 0x03
  else if b.val = 0xF0 then 0x34
  else if b.val < 0xF4 then 0x04
  else if b.val = 0xF4 then 0x44
  else 0xF1

/-- Table `utf8.acceptRanges`: lowest and highest second byte accepted. -/
def acceptRanges (i : Nat) : Nat × Nat :=
  match i with
  | 0 => (0x80, 0xBF)
  | 1 => (0xA0, 0xBF)
  | 2 => (0x80, 0x9F)
  | 3 => (0x90, 0xBF)
  | 4 => (0x80, 0x8F)
  | _ => (0, 0)

/-- Function `utf8.DecodeRuneInString`: the first rune of `s` and its width in bytes.
An invalid encoding gives `(RuneError, 1)`, the empty string `(RuneError, 0)`.  The
masks `&0x1F`, `&0x0F`, `&0x07`, `&0x3F` are remainders and the shifts and disjoint
ors are products and sums. -/
def DecodeRuneInString (s : GoString) : Nat × Nat :=
  match s with
  | [] => (RuneError, 0)
  | s0 :: t =>
    let x := first s0
    if x ≥ 0xF0 then
      (if x = 0xF1 then RuneError else s0.val, 1)
    else
      let sz := x % 8
      let accept := acceptRanges (x / 16)
      if s.length < sz then (RuneError, 1)
      else
        match t with
        | [] => (RuneError, 1)
        | s1 :: t1 =>
          if s1.val < accept.1 ∨ accept.2 < s1.val then (RuneError, 1)
          else if sz ≤ 2 then ((s0.val % 32) * 64 + s1.val % 64, 2)
          else
            match t1 with
            | [] => (RuneError, 1)
            | s2 :: t2 =>
              if s2.val < 0x80 ∨ 0xBF < s2.val then (RuneError, 1)
              else if sz ≤ 3 then
                ((s0.val % 16) * 4096 + (s1.val % 64) * 64 + s2.val % 64, 3)
              else
                match t2 with
                | [] => (RuneError, 1)
                | s3 :: _ =>
                  if s3.val < 0x80 ∨ 0xBF < s3.val then (RuneError, 1)
                  else
                    ((s0.val % 8) * 262144 + (s1.val % 64) * 4096 + (s2.val % 64) * 64
                      + s3.val % 64, 4)

/-- Function `utf8.RuneStart`: the byte is not a continuation byte. -/
def RuneStart (b : Byte) : Bool := decide (b.val / 64 ≠ 2)

/-- The backward search of `utf8.DecodeLastRuneInString`:
`for start--; start >= lim; start-- { if RuneStart(s[start]) { break } }`,
entered with `start` already decremented. -/
def lastRuneStart (s : GoString) (lim : Int) : Nat → Int → Int
  | 0, start => start
  | fuel + 1, start =>
    if start ≥ lim then
      if RuneStart (s.getD start.toNat 0) then start
      else lastRuneStart s lim fuel (start - 1)
    else start

/-- Function `utf8.DecodeLastRuneInString`: the last rune of `s` and its width. -/
def DecodeLastRuneInString (s : GoString) : Nat × Nat :=
  let end_ := s.length
  if end_ = 0 then (RuneError, 0)
  else
    let r := (s.getD (end_ - 1) 0).val
    if r < RuneSelf then (r, 1)
    else
      let lim : Int := if (end_ : Int) - UTFMax < 0 then 0 else (end_ : Int) - UTFMax
      let start := lastRuneStart s lim UTFMax ((end_ : Int) - 2)
      let start := if start < 0 then 0 else start.toNat
      let (r, size) := DecodeRuneInString (s.drop start)
      if start + size ≠ end_ then (RuneError, 1) else (r, size)

/-- Function `unicode.IsSpace`: the Latin-1 spaces, and beyond Latin-1 the code points
with the `White_Space` property. -/
def IsSpace (r : Nat) : Bool :=
  if r ≤ 0xFF then
    decide (r = 0x09 ∨ r = 0x0A ∨ r = 0x0B ∨ r = 0x0C ∨ r = 0x0D ∨ r = 0x20 ∨ r = 0x85
      ∨ r = 0xA0)
  else
    decide (r = 0x1680 ∨ (0x2000 ≤ r ∧ r ≤ 0x200A) ∨ r = 0x2028 ∨ r = 0x2029 ∨ r = 0x202F
      ∨ r = 0x205F ∨ r = 0x3000)

/-! ## `strings.TrimSpace` -/

/-- Function `strings.indexFunc`, the loop `for i, r := range s`: the index of the
first rune `r` of `rest` with `f r = truth`, counted from `i`, or `-1`.  The first
argument bounds the number of rounds; a round takes at least one byte, so `len(s)`
rounds, which `TrimLeftFunc` passes, are enough. -/
def indexFunc (f : Nat → Bool) (truth : Bool) : Nat → Nat → GoString → Int
  | 0, _, _ => -1
  | fuel + 1, i, rest =>
    if rest = [] then -1
    else
      let (r, size) := DecodeRuneInString rest
      if f r = truth then (i : Int)
      else indexFunc f truth fuel (i + size) (rest.drop size)

/-- Function `strings.lastIndexFunc`, the loop `for i := len(s); i > 0;`: the index of
the last rune `r` with `f r = truth`, or `-1`.  The first argument bounds the number of
rounds, as in `indexFunc`. -/
def lastIndexFunc (s : GoString) (f : Nat → Bool) (truth : Bool) : Nat → Nat → Int
  | 0, _ => -1
  | fuel + 1, i =>
    if i > 0 then
      let (r, size) := DecodeLastRuneInString (s.take i)
      let i := i - size
      if f r = truth then (i : Int)
      else lastIndexFunc s f truth fuel i
    else -1

/-- Function `strings.TrimLeftFunc`. -/
def TrimLeftFunc (s : GoString) (f : Nat → Bool) : GoString :=
  let i := indexFunc f false s.length 0 s
  if i = -1 then [] else s.drop i.toNat

/-- Function `strings.TrimRightFunc`. -/
def TrimRightFunc (s : GoString) (f : Nat → Bool) : GoString :=
  let i := lastIndexFunc s f false s.length s.length
  let i : Int :=
    if i ≥ 0 ∧ (s.getD i.toNat 0).val ≥ RuneSelf then
      i + (DecodeRuneInString (s.drop i.toNat)).2
    else i + 1
  s.take i.toNat

/-- Function `strings.TrimFunc`. -/
def TrimFunc (s : GoString) (f : Nat → Bool) : GoString :=
  TrimRightFunc (TrimLeftFunc s f) f

/-- Table `strings.asciiSpace`. -/
def asciiSpace (c : Byte) : Nat :=
  if c.val = 0x09 ∨ c.val = 0x0A ∨ c.val = 0x0B ∨ c.val = 0x0C ∨ c.val = 0x0D ∨ c.val = 0x20
  then 1 else 0

/-- Second loop of `strings.TrimSpace` on `s = s[start:]`: `stop` runs down from
`len(s)` over ASCII spaces and hands over to `TrimRightFunc` at a non-ASCII byte. -/
def trimSpaceStop (s : GoString) : Nat → GoString
  | 0 => s.take 0
  | stop + 1 =>
    let c := s.getD stop 0
    if c.val ≥ RuneSelf then TrimRightFunc (s.take (stop + 1)) IsSpace
    else if asciiSpace c = 0 then s.take (stop + 1)
    else trimSpaceStop s stop

/-- First loop of `strings.TrimSpace`: `start` runs up over ASCII spaces and hands
over to `TrimFunc` at a non-ASCII byte; then the second loop runs on the rest. -/
def trimSpaceStart : GoString → GoString
  | [] => trimSpaceStop [] 0
  | c :: t =>
    if c.val ≥ RuneSelf then TrimFunc (c :: t) IsSpace
    else if asciiSpace c = 0 then trimSpaceStop (c :: t) (c :: t).length
    else trimSpaceStart t

/-- Function `strings.TrimSpace`: `s` without its leading and trailing white space,
as Unicode defines it. -/
def TrimSpace (s : GoString) : GoString := trimSpaceStart s

/-! ## Specification of `strings.TrimSpace`

Functions that the proofs measure `TrimSpace` against; they are not part of the
program. -/

/-- Width of the white-space rune that `s` starts with, `0` if it starts with none:
the UTF-8 encodings of the code points accepted by `IsSpace`. -/
def spaceWidth : GoString → Nat
  | [] => 0
  | b0 :: t =>
    if b0.val = 0x09 ∨ b0.val = 0x0A ∨ b0.val = 0x0B ∨ b0.val = 0x0C ∨ b0.val = 0x0D
        ∨ b0.val = 0x20 then 1
    else
      match t with
      | [] => 0
      | b1 :: t1 =>
        if b0.val = 0xC2 ∧ (b1.val = 0x85 ∨ b1.val = 0xA0) then 2
        else
          match t1 with
          | [] => 0
          | b2 :: _ =>
            if (b0.val = 0xE1 ∧ b1.val = 0x9A ∧ b2.val = 0x80)
                ∨ (b0.val = 0xE2 ∧ b1.val = 0x80 ∧
                    ((0x80 ≤ b2.val ∧ b2.val ≤ 0x8A) ∨ b2.val = 0xA8 ∨ b2.val = 0xA9
                      ∨ b2.val = 0xAF))
                ∨ (b0.val = 0xE2 ∧ b1.val = 0x81 ∧ b2.val = 0x9F)
                ∨ (b0.val = 0xE3 ∧ b1.val = 0x80 ∧ b2.val = 0x80) then 3
            else 0

/-- Width of the white-space rune that `s` ends with, as `DecodeLastRuneInString`
reads it, `0` if it ends with none. -/
def backWidth (s : GoString) : Nat :=
  if IsSpace (DecodeLastRuneInString s).1 then (DecodeLastRuneInString s).2 else 0

/-- Removing leading white-space runes one at a time, at most `fuel` of them. -/
def stripFront : Nat → GoString → GoString
  | 0, s => s
  | fuel + 1, s => if spaceWidth s = 0 then s else stripFront fuel (s.drop (spaceWidth s))

/-- Removing trailing white-space runes one at a time, at most `fuel` of them. -/
def stripBack : Nat → GoString → GoString
  | 0, s => s
  | fuel + 1, s =>
    if backWidth s = 0 then s else stripBack fuel (s.take (s.length - backWidth s))

/-- The end index that `TrimRightFunc` computes from the result of `lastIndexFunc`. -/
def rightEnd (s : GoString) (i : Int) : Int :=
  if i ≥ 0 ∧ (s.getD i.toNat 0).val ≥ RuneSelf then
    i + (DecodeRuneInString (s.drop i.toNat)).2
  else i + 1

/-- The specification of `TrimSpace`: leading, then trailing white-space runes
removed. -/
def trimSpec (s : GoString) : GoString :=
  stripBack (stripFront s.length s).length (stripFront s.length s)

/-! ## Library calls of the program -/

/-- Function `strings.HasPrefix`: `len(s) >= len(prefix) && s[:len(prefix)] == prefix`. -/
def HasPrefix (s pfx : GoString) : Bool :=
  decide (s.length ≥ pfx.length ∧ s.take pfx.length = pfx)

/-- Function `sort.Strings`: the strings in increasing order, Go comparing strings byte
by byte.  The order on strings is linear, so a list has one sorted arrangement and the
result does not depend on the sorting algorithm (`sortStrings_unique`). -/
def sortStrings (l : List GoString) : List GoString :=
  l.insertionSort (fun a b => a ≤ b)

/-- A `map[string]struct{}`: the keys, none of them twice. -/
abbrev StringSet := List GoString

/-- The assignment `m[s] = struct{}{}`. -/
def StringSet.add (m : StringSet) (s : GoString) : StringSet :=
  if s ∈ m then m else m ++ [s]

/-- Constant `bufio.MaxScanTokenSize`: the size at which the buffer of a `Scanner`
stops growing. -/
def MaxScanTokenSize : Nat := 64 * 1024

/-- Function `dropCR` of `bufio`: the line without a final carriage return. -/
def dropCR (data : GoString) : GoString :=
  if data.length > 0 ∧ data.getD (data.length - 1) 0 = 0x0D then data.take (data.length - 1)
  else data

/-- The tokens of a `bufio.Scanner` with the default split function `ScanLines`, read
until `Scan` returns false, and whether `Err` then reports `ErrTooLong`.  `cur` holds
the bytes of the line read so far.  A line ends at a newline or at the end of the
input; a last line that is empty is no token.  A line of `MaxScanTokenSize` bytes or
more fills the buffer before its end is seen, and the scanner stops there. -/
def scanLines (cur : GoString) : GoString → List GoString × Bool
  | [] =>
    if cur = [] then ([], false)
    else if cur.length ≥ MaxScanTokenSize then ([], true)
    else ([dropCR cur], false)
  | b :: rest =>
    if b = 0x0A then
      if cur.length ≥ MaxScanTokenSize then ([], true)
      else
        let r := scanLines [] rest
        (dropCR cur :: r.1, r.2)
    else scanLines (cur ++ [b]) rest

/-! ## `internal/cli/cli.go` -/

/-- The errors that the modelled functions return. -/
inductive Error
  | openFailed
  | tooLong
  | command
  | transport
  | status (channel : String) (code : Nat)
  deriving DecidableEq, Repr

/-- What `os.Open` finds at the path of an inventory file. -/
inductive File
  | notExist
  | unreadable
  | content (data : GoString)
  deriving DecidableEq, Repr

/-- The loop shared by `readLines` and `runSubfinder`:
`s := strings.TrimSpace(sc.Text()); if s != "" { out = append(out, s) }`. -/
def appendTrimmed (out : List GoString) (text : GoString) : List GoString :=
  let s := TrimSpace text
  if s ≠ [] then out ++ [s] else out

/-- Function `readLines`: the trimmed non-empty lines of the file and the error.  A
file that does not exist is an empty list and no error.  Once the file is open, reading
it succeeds; the only error of the scanner is `ErrTooLong`. -/
def readLines (p : File) : List GoString × Option Error :=
  match p with
  | .notExist => ([], none)
  | .unreadable => ([], some .openFailed)
  | .content data =>
    let sc := scanLines [] data
    (sc.1.foldl appendTrimmed [], if sc.2 then some .tooLong else none)

/-- Function `writeLines`, when creating, writing and renaming succeed: the contents of
the file afterwards, `l + "\n"` for every line. -/
def writeLines (lines : List GoString) : GoString :=
  lines.foldl (fun f l => f ++ (l ++ str "\n")) []

/-- Function `uniqueSorted`.  The keys of the map are ranged over in an order that Go
leaves open; sorting makes the result the same for every order. -/
def uniqueSorted (in_ : List GoString) : List GoString :=
  let m : StringSet :=
    in_.foldl (fun m s => let s := TrimSpace s; if s ≠ [] then m.add s else m) []
  let out := m.foldl (fun out s => out ++ [s]) []
  sortStrings out

/-- Function `cleanWebhook`. -/
def cleanWebhook (s : GoString) : GoString :=
  let s := TrimSpace s
  if s = [] ∨ s = str "YOUR_WEBHOOK_URL_HERE" ∨ s = str "YOUR_WEBHOOK_URL" then []
  else if ¬ (HasPrefix s (str "http://") ∨ HasPrefix s (str "https://")) then []
  else s

/-- Function `runSubfinder`, when the command succeeds with `out` on its standard
output. -/
def runSubfinder (out : GoString) : List GoString :=
  let res := (scanLines [] out).1.foldl appendTrimmed []
  uniqueSorted res

/-- Function `diff`. -/
def diff (old now : List GoString) : List GoString × List GoString :=
  let oldSet : StringSet := old.foldl (fun m s => m.add s) []
  now.foldl
    (fun r s => if s ∈ oldSet then (r.1, r.2 ++ [s]) else (r.1 ++ [s], r.2))
    ([], [])

/-- The inventory that `scanOne` writes: `uniqueSorted(append(oldList, nowList...))`. -/
def merge (old now : List GoString) : List GoString :=
  uniqueSorted (old ++ now)

/-- What one run of `scanOne` leaves behind: the lists `merged` and `added`, the
inventory file written from `merged`, and the snapshot file written from `added` when
there are new names. -/
structure Scan where
  merged : List GoString
  added : List GoString
  inventory : File
  snapshot : Option GoString
  deriving DecidableEq, Repr

/-- Function `scanOne` up to the files it writes, when the directories exist and the
writes succeed.  `p` is the inventory file found, `cmd` the standard output of
subfinder, `none` when the command fails. -/
def scanOne (p : File) (cmd : Option GoString) : Except Error Scan :=
  match readLines p with
  | (_, some err) => .error err
  | (oldList, none) =>
    match cmd with
    | none => .error .command
    | some out =>
      let nowList := runSubfinder out
      let added := (diff oldList nowList).1
      let merged := uniqueSorted (oldList ++ nowList)
      .ok { merged := merged, added := added, inventory := .content (writeLines merged),
            snapshot := if added.length > 0 then some (writeLines added) else none }

/-- The struct `Config`. -/
structure Config where
  DiscordWebhookURL : GoString
  TelegramBotToken : GoString
  TelegramChatID : GoString
  OpenAIAPIKey : GoString
  deriving DecidableEq, Repr

/-- The environment: `os.Getenv`, the empty string for a variable that is not set. -/
abbrev Env := String → GoString

/-- Function `getDiscordWebhook`; `cfg` is the pointer that `loadConfig` returns,
`none` for `nil`. -/
def getDiscordWebhook (env : Env) (cfg : Option Config) : GoString :=
  let s := cleanWebhook (env "DISCORD_WEBHOOK_URL")
  if s ≠ [] then s
  else
    match cfg with
    | some c => cleanWebhook c.DiscordWebhookURL
    | none => []

/-- Function `getTelegram`. -/
def getTelegram (env : Env) (cfg : Option Config) : GoString × GoString :=
  let tok := TrimSpace (env "TELEGRAM_BOT_TOKEN")
  let ch := TrimSpace (env "TELEGRAM_CHAT_ID")
  if tok ≠ [] ∧ ch ≠ [] then (tok, ch)
  else
    match cfg with
    | some c => (TrimSpace c.TelegramBotToken, TrimSpace c.TelegramChatID)
    | none => ([], [])

/-- Function `getOpenAIKey`. -/
def getOpenAIKey (env : Env) (cfg : Option Config) : GoString :=
  let s := TrimSpace (env "OPENAI_API_KEY")
  if s ≠ [] then s
  else
    match cfg with
    | some c => TrimSpace c.OpenAIAPIKey
    | none => []

/-- The answer to one HTTP request: an error of the client, or a status code. -/
inductive Response
  | failed
  | status (code : Nat)
  deriving DecidableEq, Repr

/-- An HTTP client: the answer to a `POST` of a message to a URL. -/
abbrev Client := GoString → GoString → Response

/-- What a notifier did: the chunks it built, the messages it posted, in order, and
the error it returned. -/
structure Posted where
  chunks : List GoString
  sent : List GoString
  err : Option Error
  deriving DecidableEq, Repr

/-- One round of the chunking loop of `postDiscord` and `postTelegram`, on the pair
of `cur` and `chunks`:
`if len(cur)+len(ln)+1 > maxLen { chunks = append(chunks, cur); cur = start }`, then
`cur += ln+"\n"`. -/
def chunkStep (maxLen : Nat) (start : GoString) (r : GoString × List GoString)
    (ln : GoString) : GoString × List GoString :=
  let r := if r.1.length + ln.length + 1 > maxLen then (start, r.2 ++ [r.1]) else r
  (r.1 ++ (ln ++ str "\n"), r.2)

/-- The chunking of `postDiscord` and `postTelegram`: every chunk starts with `start`,
a chunk is closed when the next line would take it over `maxLen`, and the last one is
kept unless it is all white space. -/
def buildChunks (maxLen : Nat) (start : GoString) (lines : List GoString) : List GoString :=
  let r := lines.foldl (chunkStep maxLen start) (start, [])
  if TrimSpace r.1 ≠ [] then r.2 ++ [r.1] else r.2

/-- The sending loop of the notifiers: one request per chunk, stopping at the first
failed request or status of 300 or more. -/
def postAll (client : Client) (channel : String) (url : GoString) :
    List GoString → List GoString × Option Error
  | [] => ([], none)
  | msg :: rest =>
    match client url msg with
    | .failed => ([msg], some .transport)
    | .status code =>
      if code ≥ 300 then ([msg], some (.status channel code))
      else
        let r := postAll client channel url rest
        (msg :: r.1, r.2)

/-- Function `postDiscord`. -/
def postDiscord (client : Client) (webhook title : GoString) (lines : List GoString) :
    Posted :=
  let webhook := cleanWebhook webhook
  if webhook = [] ∨ lines.length = 0 then ⟨[], [], none⟩
  else
    let header := title
    let chunks := buildChunks 1800 (header ++ str "\n") lines
    let r := postAll client "discord" webhook chunks
    ⟨chunks, r.1, r.2⟩

/-- Function `postTelegram`. -/
def postTelegram (client : Client) (botToken chatID title : GoString)
    (lines : List GoString) : Posted :=
  if botToken = [] ∨ chatID = [] ∨ lines.length = 0 then ⟨[], [], none⟩
  else
    let header := title ++ str "\n"
    let chunks := buildChunks 3900 header lines
    let api := str "https://api.telegram.org/bot" ++ botToken ++ str "/sendMessage"
    let r := postAll client "telegram" api chunks
    ⟨chunks, r.1, r.2⟩

/-- The request that `aiSummary` posts to the completion endpoint: the `Authorization`
header and the content of the user message.  The URL, the model, the system message
and the temperature are constants of the source. -/
structure AIRequest where
  authorization : GoString
  userMsg : GoString
  deriving DecidableEq, Repr

/-- The answer to the request of `aiSummary`: an error of the client, or a status code
and a body. -/
inductive AIResponse
  | failed
  | answer (code : Nat) (body : GoString)
  deriving DecidableEq, Repr

/-- What `json.NewDecoder(resp.Body).Decode(&parsed)` makes of a body: `none` for an
error, else the `message.content` of every element of `choices`. -/
abbrev Decoder := GoString → Option (List GoString)

/-- The errors that `aiSummary` returns: the error of the client, the error made from
a status of 300 or more and the body, the error of the decoder, and
`errors.New("no AI choices returned")`. -/
inductive AIError
  | transport
  | status (code : Nat) (body : GoString)
  | decode
  | noChoices
  deriving DecidableEq, Repr

/-- What `aiSummary` did: the requests it made, the text and the error it returned. -/
structure Summary where
  requests : List AIRequest
  text : GoString
  err : Option AIError
  deriving DecidableEq, Repr

/-- The request of `aiSummary`: the user message
`fmt.Sprintf("Domain: %s\nNew subdomains (%d):\n- %s\n\nTask: ...", domain,
len(newSubs), strings.Join(newSubs, "\n- "))` and the header `"Bearer "+key`. -/
def summaryRequest (key domain : GoString) (newSubs : List GoString) : AIRequest :=
  { authorization := str "Bearer " ++ key
    userMsg :=
      str "Domain: " ++ domain ++ str "\nNew subdomains (" ++ str (toString newSubs.length)
        ++ str "):\n- " ++ List.intercalate (str "\n- ") newSubs
        ++ str ("\n\nTask: 1) Group by obvious services (auth, api, dev, staging, admin, "
          ++ "cdn, mail, vpn, grafana, kibana, git, test). 2) Flag likely high-value "
          ++ "targets. 3) Suggest next checks (httpx, tls certs, title, tech stack, weak "
          ++ "DNS). Output in concise bullets.") }

/-- Function `aiSummary`; `client` answers the one request it may make, `decode` is the
JSON decoder. -/
def aiSummary (env : Env) (cfg : Option Config) (client : AIRequest → AIResponse)
    (decode : Decoder) (domain : GoString) (newSubs : List GoString) : Summary :=
  let key := getOpenAIKey env cfg
  if key = [] then ⟨[], [], none⟩
  else if newSubs.length = 0 then ⟨[], str "No new subdomains found.", none⟩
  else
    let req := summaryRequest key domain newSubs
    match client req with
    | .failed => ⟨[req], [], some .transport⟩
    | .answer code body =>
      if code = 429 then ⟨[req], [], none⟩
      else if code ≥ 300 then ⟨[req], [], some (.status code body)⟩
      else
        match decode body with
        | none => ⟨[req], [], some .decode⟩
        | some choices =>
          if choices.length = 0 then ⟨[req], [], some .noChoices⟩
          else ⟨[req], TrimSpace (choices.getD 0 []), none⟩

/-! ## Sample inputs -/

/-- An environment with a webhook and a bot token but no chat id and no API key. -/
def sampleEnv : Env := fun name =>
  if name = "DISCORD_WEBHOOK_URL" then str " https://discord.example/hook "
  else if name = "TELEGRAM_BOT_TOKEN" then str "envtoken"
  else []

/-- A config file with every credential set. -/
def sampleConfig : Config :=
  { DiscordWebhookURL := str "https://config.example/hook"
    TelegramBotToken := str "cfgtoken"
    TelegramChatID := str " 42 "
    OpenAIAPIKey := str "sk-config\n" }


/-! ## Theorems -/

/-! ### Decoding white space -/

set_option maxRecDepth 100000 in
theorem first_cases (b : Byte) :
    (b.val < 0x80 ∧ first b = 0xF0)
    ∨ (((0x80 ≤ b.val ∧ b.val < 0xC2) ∨ 0xF4 < b.val) ∧ first b = 0xF1)
    ∨ (0xC2 ≤ b.val ∧ b.val < 0xE0 ∧ first b = 0x02)
    ∨ (b.val = 0xE0 ∧ first b = 0x13)
    ∨ (((0xE1 ≤ b.val ∧ b.val < 0xED) ∨ b.val = 0xEE ∨ b.val = 0xEF) ∧ first b = 0x03)
    ∨ (b.val = 0xED ∧ first b = 0x23)
    ∨ (b.val = 0xF0 ∧ first b = 0x34)
    ∨ (0xF1 ≤ b.val ∧ b.val < 0xF4 ∧ first b = 0x04)
    ∨ (b.val = 0xF4 ∧ first b = 0x44) := by
  revert b; decide

theorem IsSpace_iff (r : Nat) :
    IsSpace r = true ↔
      (r = 0x09 ∨ r = 0x0A ∨ r = 0x0B ∨ r = 0x0C ∨ r = 0x0D ∨ r = 0x20 ∨ r = 0x85 ∨ r = 0xA0
        ∨ r = 0x1680 ∨ (0x2000 ≤ r ∧ r ≤ 0x200A) ∨ r = 0x2028 ∨ r = 0x2029 ∨ r = 0x202F
        ∨ r = 0x205F ∨ r = 0x3000) := by
  unfold IsSpace
  split_ifs with h
  · rw [decide_eq_true_iff]
    constructor
    · intro h'
      rcases h' with h' | h' | h' | h' | h' | h' | h' | h' <;> simp [h']
    · intro h'
      rcases h' with h' | h' | h' | h' | h' | h' | h' | h' | h' | h' | h' | h' | h' | h' | h'
      all_goals first | (exfalso; omega) | simp [h']
  · rw [decide_eq_true_iff]
    constructor
    · intro h'
      rcases h' with h' | h' | h' | h' | h' | h' | h' <;> simp [h']
    · intro h'
      rcases h' with h' | h' | h' | h' | h' | h' | h' | h' | h' | h' | h' | h' | h' | h' | h'
      all_goals first | (exfalso; omega) | simp [h']

theorem rune2_space (b0 b1 : Nat) (h0 : 0xC2 ≤ b0) (h0' : b0 < 0xE0) (h1 : 0x80 ≤ b1)
    (h1' : b1 ≤ 0xBF) :
    IsSpace ((b0 % 32) * 64 + b1 % 64) = true ↔ b0 = 0xC2 ∧ (b1 = 0x85 ∨ b1 = 0xA0) := by
  have e0 : b0 % 32 = b0 - 0xC0 := by omega
  have e1 : b1 % 64 = b1 - 0x80 := by omega
  rw [IsSpace_iff, e0, e1]
  constructor
  · intro h
    rcases h with h | h | h | h | h | h | h | h | h | h | h | h | h | h | h
    any_goals (exfalso; omega)
    · exact ⟨by omega, Or.inl (by omega)⟩
    · exact ⟨by omega, Or.inr (by omega)⟩
  · rintro ⟨rfl, rfl | rfl⟩ <;> simp

theorem rune3_space (b0 b1 b2 : Nat) (h0 : 0xE0 ≤ b0) (h0' : b0 < 0xF0) (h1 : 0x80 ≤ b1)
    (h1' : b1 ≤ 0xBF) (h2 : 0x80 ≤ b2) (h2' : b2 ≤ 0xBF) (hE0 : b0 = 0xE0 → 0xA0 ≤ b1) :
    IsSpace ((b0 % 16) * 4096 + (b1 % 64) * 64 + b2 % 64) = true ↔
      (b0 = 0xE1 ∧ b1 = 0x9A ∧ b2 = 0x80)
        ∨ (b0 = 0xE2 ∧ b1 = 0x80 ∧
            ((0x80 ≤ b2 ∧ b2 ≤ 0x8A) ∨ b2 = 0xA8 ∨ b2 = 0xA9 ∨ b2 = 0xAF))
        ∨ (b0 = 0xE2 ∧ b1 = 0x81 ∧ b2 = 0x9F)
        ∨ (b0 = 0xE3 ∧ b1 = 0x80 ∧ b2 = 0x80) := by
  have e0 : b0 % 16 = b0 - 0xE0 := by omega
  have e1 : b1 % 64 = b1 - 0x80 := by omega
  have e2 : b2 % 64 = b2 - 0x80 := by omega
  rw [IsSpace_iff, e0, e1, e2]
  constructor
  · intro h
    rcases h with h | h | h | h | h | h | h | h | h | h | h | h | h | h | h
    · exfalso; omega
    · exfalso; omega
    · exfalso; omega
    · exfalso; omega
    · exfalso; omega
    · exfalso; omega
    · exfalso; omega
    · exfalso; omega
    · left; omega
    · right; left; omega
    · right; left; omega
    · right; left; omega
    · right; left; omega
    · right; right; left; omega
    · right; right; right; omega
  · intro h
    rcases h with ⟨rfl, rfl, rfl⟩ | ⟨rfl, rfl, h⟩ | ⟨rfl, rfl, rfl⟩ | ⟨rfl, rfl, rfl⟩
    · simp
    · rcases h with h | rfl | rfl | rfl
      · right; right; right; right; right; right; right; right; right; left; omega
      · simp
      · simp
      · simp
    · simp
    · simp

theorem rune4_space (b0 b1 b2 b3 : Nat) (h0 : 0xF0 ≤ b0) (h0' : b0 ≤ 0xF4) (h1 : 0x80 ≤ b1)
    (h1' : b1 ≤ 0xBF) (hF0 : b0 = 0xF0 → 0x90 ≤ b1) :
    IsSpace ((b0 % 8) * 262144 + (b1 % 64) * 4096 + (b2 % 64) * 64 + b3 % 64) = false := by
  have e0 : b0 % 8 = b0 - 0xF0 := by omega
  have e1 : b1 % 64 = b1 - 0x80 := by omega
  have hge : 0x10000 ≤ (b0 % 8) * 262144 + (b1 % 64) * 4096 + (b2 % 64) * 64 + b3 % 64 := by
    rw [e0, e1]; omega
  rw [Bool.eq_false_iff, Ne, IsSpace_iff]
  intro h
  rcases h with h | h | h | h | h | h | h | h | h | h | h | h | h | h | h <;> omega

theorem spaceWidth_ascii (b0 : Byte) (t : GoString) (h : b0.val < 0x80) :
    spaceWidth (b0 :: t) = if b0.val = 0x09 ∨ b0.val = 0x0A ∨ b0.val = 0x0B ∨ b0.val = 0x0C
      ∨ b0.val = 0x0D ∨ b0.val = 0x20 then 1 else 0 := by
  rcases t with _ | ⟨b1, _ | ⟨b2, t⟩⟩ <;> simp only [spaceWidth] <;> split_ifs <;> omega

theorem spaceWidth_other (b0 : Byte) (t : GoString)
    (h : (0x80 ≤ b0.val ∧ b0.val < 0xC2) ∨ 0xF0 ≤ b0.val) : spaceWidth (b0 :: t) = 0 := by
  rcases t with _ | ⟨b1, _ | ⟨b2, t⟩⟩ <;> simp only [spaceWidth] <;> split_ifs <;> omega

theorem spaceWidth_one (b0 : Byte) (h : 0x80 ≤ b0.val) : spaceWidth [b0] = 0 := by
  simp only [spaceWidth]; split_ifs <;> omega

theorem spaceWidth_two (b0 b1 : Byte) (t : GoString) (h : 0xC2 ≤ b0.val) (h' : b0.val < 0xE0) :
    spaceWidth (b0 :: b1 :: t) =
      if b0.val = 0xC2 ∧ (b1.val = 0x85 ∨ b1.val = 0xA0) then 2 else 0 := by
  rcases t with _ | ⟨b2, t⟩ <;> simp only [spaceWidth] <;> split_ifs <;> omega

theorem spaceWidth_pair (b0 b1 : Byte) (h : 0xE0 ≤ b0.val) : spaceWidth [b0, b1] = 0 := by
  simp only [spaceWidth]; split_ifs <;> omega

theorem spaceWidth_three (b0 b1 b2 : Byte) (t : GoString) (h : 0xE0 ≤ b0.val) :
    spaceWidth (b0 :: b1 :: b2 :: t) =
      if (b0.val = 0xE1 ∧ b1.val = 0x9A ∧ b2.val = 0x80)
          ∨ (b0.val = 0xE2 ∧ b1.val = 0x80 ∧
              ((0x80 ≤ b2.val ∧ b2.val ≤ 0x8A) ∨ b2.val = 0xA8 ∨ b2.val = 0xA9
                ∨ b2.val = 0xAF))
          ∨ (b0.val = 0xE2 ∧ b1.val = 0x81 ∧ b2.val = 0x9F)
          ∨ (b0.val = 0xE3 ∧ b1.val = 0x80 ∧ b2.val = 0x80) then 3
      else 0 := by
  simp only [spaceWidth]
  rw [if_neg (by omega), if_neg (by omega)]

theorem IsSpace_RuneError : IsSpace RuneError = false := by decide

theorem IsSpace_ascii (b0 : Byte) (h : b0.val < 0x80) :
    IsSpace b0.val = true ↔ (b0.val = 0x09 ∨ b0.val = 0x0A ∨ b0.val = 0x0B ∨ b0.val = 0x0C
      ∨ b0.val = 0x0D ∨ b0.val = 0x20) := by
  rw [IsSpace_iff]
  constructor
  · intro h'
    rcases h' with h' | h' | h' | h' | h' | h' | h' | h' | h' | h' | h' | h' | h' | h' | h'
    all_goals first | (exfalso; omega) | simp [h']
  · intro h'
    rcases h' with h' | h' | h' | h' | h' | h' <;> simp [h']

theorem decode_one (b0 : Byte) (h : 0x80 ≤ b0.val) :
    DecodeRuneInString [b0] = (RuneError, 1) := by
  rcases first_cases b0 with ⟨h, hx⟩ | ⟨h, hx⟩ | ⟨h, h', hx⟩ | ⟨h, hx⟩ | ⟨h, hx⟩ | ⟨h, hx⟩
    | ⟨h, hx⟩ | ⟨h, h', hx⟩ | ⟨h, hx⟩ <;>
  simp [DecodeRuneInString, hx] <;> omega

theorem decode_ascii (b0 : Byte) (t : GoString) (h : b0.val < 0x80) :
    DecodeRuneInString (b0 :: t) = (b0.val, 1) := by
  rcases first_cases b0 with ⟨h, hx⟩ | ⟨h, hx⟩ | ⟨h, h', hx⟩ | ⟨h, hx⟩ | ⟨h, hx⟩ | ⟨h, hx⟩
    | ⟨h, hx⟩ | ⟨h, h', hx⟩ | ⟨h, hx⟩ <;>
  first | omega | simp [DecodeRuneInString, hx]

theorem decode_xx (b0 : Byte) (t : GoString) (hx : first b0 = 0xF1) :
    DecodeRuneInString (b0 :: t) = (RuneError, 1) := by
  simp [DecodeRuneInString, hx]

theorem decode_two (b0 b1 : Byte) (t : GoString) (hx : first b0 = 0x02) :
    DecodeRuneInString (b0 :: b1 :: t) =
      if b1.val < 0x80 ∨ 0xBF < b1.val then (RuneError, 1)
      else ((b0.val % 32) * 64 + b1.val % 64, 2) := by
  simp [DecodeRuneInString, hx, acceptRanges]

theorem decode_pair (b0 b1 : Byte) (hx : first b0 % 8 = 3 ∨ first b0 % 8 = 4)
    (hx' : first b0 < 0xF0) :
    DecodeRuneInString [b0, b1] = (RuneError, 1) := by
  have hlt : ¬ 0xF0 ≤ first b0 := by omega
  have hsz : ¬ first b0 % 8 ≤ 2 := by omega
  simp only [DecodeRuneInString, ge_iff_le, hlt, if_false, hsz]
  split_ifs <;> rfl

theorem decode_three (b0 b1 b2 : Byte) (t : GoString) (x : Nat) (hx : first b0 = x)
    (hx' : x < 0xF0) (hsz : x % 8 = 3) :
    DecodeRuneInString (b0 :: b1 :: b2 :: t) =
      if b1.val < (acceptRanges (x / 16)).1 ∨ (acceptRanges (x / 16)).2 < b1.val then
        (RuneError, 1)
      else if b2.val < 0x80 ∨ 0xBF < b2.val then (RuneError, 1)
      else ((b0.val % 16) * 4096 + (b1.val % 64) * 64 + b2.val % 64, 3) := by
  have hlt : ¬ 0xF0 ≤ x := by omega
  simp [DecodeRuneInString, hx, hlt, hsz]

theorem decode_four_not_space (b0 : Byte) (t : GoString) (h0 : 0xF0 ≤ b0.val) :
    IsSpace (DecodeRuneInString (b0 :: t)).1 = false := by
  rcases first_cases b0 with ⟨h, hx⟩ | ⟨h, hx⟩ | ⟨h, h', hx⟩ | ⟨h, hx⟩ | ⟨h, hx⟩ | ⟨h, hx⟩
    | ⟨h, hx⟩ | ⟨h, h', hx⟩ | ⟨h, hx⟩
  any_goals (exfalso; omega)
  · rw [decode_xx _ _ hx]; exact IsSpace_RuneError
  all_goals
    rcases t with _ | ⟨b1, _ | ⟨b2, _ | ⟨b3, t⟩⟩⟩ <;>
    simp only [DecodeRuneInString, hx, acceptRanges] <;> norm_num <;>
    (try split_ifs) <;> (try exact IsSpace_RuneError) <;>
    (apply rune4_space <;> omega)

theorem spaceWidth_eq_three (b0 : Byte) (t : GoString) (x : Nat) (hx : first b0 = x)
    (hx' : x < 0xF0) (hsz : x % 8 = 3) (h0 : 0xE0 ≤ b0.val) (h0' : b0.val < 0xF0)
    (hlo : 0x80 ≤ (acceptRanges (x / 16)).1) (hhi : (acceptRanges (x / 16)).2 ≤ 0xBF)
    (hE0 : b0.val = 0xE0 → 0xA0 ≤ (acceptRanges (x / 16)).1)
    (hE12 : b0.val = 0xE1 ∨ b0.val = 0xE2 ∨ b0.val = 0xE3 →
      (acceptRanges (x / 16)).1 = 0x80 ∧ (acceptRanges (x / 16)).2 = 0xBF) :
    spaceWidth (b0 :: t) =
      if IsSpace (DecodeRuneInString (b0 :: t)).1 then (DecodeRuneInString (b0 :: t)).2
      else 0 := by
  rcases t with _ | ⟨b1, _ | ⟨b2, t⟩⟩
  · rw [decode_one _ (by omega), spaceWidth_one _ (by omega), IsSpace_RuneError]; simp
  · rw [decode_pair _ _ (by omega) (by omega), spaceWidth_pair _ _ h0, IsSpace_RuneError]; simp
  rw [decode_three _ _ _ _ x hx hx' hsz, spaceWidth_three _ _ _ _ h0]
  by_cases hr : b1.val < (acceptRanges (x / 16)).1 ∨ (acceptRanges (x / 16)).2 < b1.val
  · rw [if_pos hr, IsSpace_RuneError, if_neg (by omega)]; simp
  rw [if_neg hr]
  by_cases hr2 : b2.val < 0x80 ∨ 0xBF < b2.val
  · rw [if_pos hr2, IsSpace_RuneError, if_neg (by omega)]; simp
  rw [if_neg hr2]
  have := rune3_space b0.val b1.val b2.val h0 h0' (by omega) (by omega) (by omega) (by omega)
    (by omega)
  by_cases hs : IsSpace ((b0.val % 16) * 4096 + (b1.val % 64) * 64 + b2.val % 64) = true
  · rw [if_pos hs, if_pos (this.1 hs)]
  · rw [if_neg hs, if_neg (fun hh => hs (this.2 hh))]

theorem spaceWidth_eq (s : GoString) :
    spaceWidth s =
      if IsSpace (DecodeRuneInString s).1 then (DecodeRuneInString s).2 else 0 := by
  rcases s with _ | ⟨b0, t⟩
  · simp [spaceWidth, DecodeRuneInString, IsSpace_RuneError]
  rcases first_cases b0 with ⟨h, hx⟩ | ⟨h, hx⟩ | ⟨h, h', hx⟩ | ⟨h, hx⟩ | ⟨h, hx⟩ | ⟨h, hx⟩
    | ⟨h, hx⟩ | ⟨h, h', hx⟩ | ⟨h, hx⟩
  · -- ASCII
    rw [spaceWidth_ascii _ _ h, decode_ascii _ _ h]
    by_cases hs : IsSpace b0.val = true
    · rw [if_pos hs, if_pos ((IsSpace_ascii b0 h).1 hs)]
    · rw [if_neg hs, if_neg (fun hh => hs ((IsSpace_ascii b0 h).2 hh))]
  · -- invalid leading byte
    have := b0.isLt
    rw [decode_xx _ _ hx, IsSpace_RuneError, spaceWidth_other _ _ (by omega)]; simp
  · -- two bytes
    rcases t with _ | ⟨b1, t⟩
    · rw [decode_one _ (by omega), spaceWidth_one _ (by omega), IsSpace_RuneError]; simp
    rw [decode_two _ _ _ hx, spaceWidth_two _ _ _ h h']
    by_cases hr : b1.val < 0x80 ∨ 0xBF < b1.val
    · rw [if_pos hr, IsSpace_RuneError, if_neg (by omega)]; simp
    · rw [if_neg hr]
      have := rune2_space b0.val b1.val h h' (by omega) (by omega)
      by_cases hs : IsSpace ((b0.val % 32) * 64 + b1.val % 64) = true
      · rw [if_pos hs, if_pos (this.1 hs)]
      · rw [if_neg hs, if_neg (fun hh => hs (this.2 hh))]
  · exact spaceWidth_eq_three b0 t _ hx (by norm_num) (by norm_num) (by omega) (by omega)
      (by norm_num [acceptRanges]) (by norm_num [acceptRanges]) (by norm_num [acceptRanges])
      (by omega)
  · exact spaceWidth_eq_three b0 t _ hx (by norm_num) (by norm_num) (by omega) (by omega)
      (by norm_num [acceptRanges]) (by norm_num [acceptRanges]) (by omega)
      (by norm_num [acceptRanges])
  · exact spaceWidth_eq_three b0 t _ hx (by norm_num) (by norm_num) (by omega) (by omega)
      (by norm_num [acceptRanges]) (by norm_num [acceptRanges]) (by omega)
      (by omega)
  · rw [decode_four_not_space _ _ (by omega), spaceWidth_other _ _ (by omega)]; simp
  · rw [decode_four_not_space _ _ (by omega), spaceWidth_other _ _ (by omega)]; simp
  · rw [decode_four_not_space _ _ (by omega), spaceWidth_other _ _ (by omega)]; simp

theorem spaceWidth_le_length (s : GoString) : spaceWidth s ≤ s.length := by
  rcases s with _ | ⟨b0, _ | ⟨b1, _ | ⟨b2, t⟩⟩⟩ <;> simp only [spaceWidth, List.length] <;>
    (try split_ifs) <;> omega

theorem spaceWidth_head (b : Byte) (t : GoString) (h : 0 < spaceWidth (b :: t)) :
    b.val < 0x80 ∨ 0xC2 ≤ b.val := by
  by_contra hc
  rw [spaceWidth_other b t (by omega)] at h
  exact absurd h (by decide)

theorem spaceWidth_append (u v : GoString) (h : 0 < spaceWidth u) :
    spaceWidth (u ++ v) = spaceWidth u := by
  rcases u with _ | ⟨b0, _ | ⟨b1, _ | ⟨b2, t⟩⟩⟩
  · simp [spaceWidth] at h
  · rcases v with _ | ⟨c1, _ | ⟨c2, v⟩⟩ <;>
      simp only [spaceWidth, List.cons_append, List.nil_append] at h ⊢ <;>
      split_ifs at h ⊢ <;> first | rfl | omega
  · rcases v with _ | ⟨c2, v⟩ <;>
      simp only [spaceWidth, List.cons_append, List.nil_append] at h ⊢ <;>
      split_ifs at h ⊢ <;> first | rfl | omega
  · simp only [spaceWidth, List.cons_append]

theorem spaceWidth_append_newline (u v : GoString) (hu : u ≠ []) :
    spaceWidth (u ++ (0x0A : Byte) :: v) = spaceWidth u := by
  rcases u with _ | ⟨b0, _ | ⟨b1, _ | ⟨b2, t⟩⟩⟩
  · exact absurd rfl hu
  · rcases v with _ | ⟨c2, v⟩ <;>
      simp only [spaceWidth, List.cons_append, List.nil_append] <;>
      split_ifs <;> first | rfl | (simp at *; done) | omega
  · simp only [spaceWidth, List.cons_append, List.nil_append]
    split_ifs <;> first | rfl | (simp at *; done) | omega
  · simp only [spaceWidth, List.cons_append]

theorem decode_four (b0 b1 b2 b3 : Byte) (t : GoString) (x : Nat) (hx : first b0 = x)
    (hx' : x < 0xF0) (hsz : x % 8 = 4) :
    DecodeRuneInString (b0 :: b1 :: b2 :: b3 :: t) =
      if b1.val < (acceptRanges (x / 16)).1 ∨ (acceptRanges (x / 16)).2 < b1.val then
        (RuneError, 1)
      else if b2.val < 0x80 ∨ 0xBF < b2.val then (RuneError, 1)
      else if b3.val < 0x80 ∨ 0xBF < b3.val then (RuneError, 1)
      else ((b0.val % 8) * 262144 + (b1.val % 64) * 4096 + (b2.val % 64) * 64
                      + b3.val % 64, 4) := by
  have hlt : ¬ 0xF0 ≤ x := by omega
  simp [DecodeRuneInString, hx, hlt, hsz]

theorem decode_triple (b0 b1 b2 : Byte) (hx : first b0 % 8 = 4) (hx' : first b0 < 0xF0) :
    DecodeRuneInString [b0, b1, b2] = (RuneError, 1) := by
  have hlt : ¬ 0xF0 ≤ first b0 := by omega
  simp [DecodeRuneInString, hlt, hx]

/-- The classes of leading bytes by the length of the encoding they announce. -/
theorem first_classes (b : Byte) :
    b.val < 0x80 ∨ first b = 0xF1 ∨ (0x80 ≤ b.val ∧ first b = 0x02)
      ∨ (0x80 ≤ b.val ∧ first b < 0xF0 ∧ first b % 8 = 3)
      ∨ (0x80 ≤ b.val ∧ first b < 0xF0 ∧ first b % 8 = 4) := by
  rcases first_cases b with ⟨h0, hx⟩ | ⟨h0, hx⟩ | ⟨h0, h0', hx⟩ | ⟨h0, hx⟩ | ⟨h0, hx⟩
    | ⟨h0, hx⟩ | ⟨h0, hx⟩ | ⟨h0, h0', hx⟩ | ⟨h0, hx⟩ <;> rw [hx] <;> omega

/-- A rune of two or more bytes is decoded from its own bytes only, and a rune has at
least one byte. -/
theorem decode_append_and_pos (b0 : Byte) (t v : GoString) :
    1 ≤ (DecodeRuneInString (b0 :: t)).2 ∧
    (2 ≤ (DecodeRuneInString (b0 :: t)).2 →
      DecodeRuneInString (b0 :: t ++ v) = DecodeRuneInString (b0 :: t)) := by
  rcases first_classes b0 with h0 | hx | ⟨h0, hx⟩ | ⟨h0, hx', hx⟩ | ⟨h0, hx', hx⟩
  · rw [decode_ascii _ _ h0]; simp
  · rw [decode_xx _ _ hx]; simp
  · rcases t with _ | ⟨b1, t⟩
    · rw [decode_one _ h0]; simp
    · rw [List.cons_append, List.cons_append, decode_two _ _ _ hx, decode_two _ _ _ hx]
      split_ifs <;> simp
  · rcases t with _ | ⟨b1, _ | ⟨b2, t⟩⟩
    · rw [decode_one _ h0]; simp
    · rw [decode_pair _ _ (Or.inl hx) hx']; simp
    · rw [List.cons_append, List.cons_append, List.cons_append,
        decode_three _ _ _ _ _ rfl hx' hx, decode_three _ _ _ _ _ rfl hx' hx]
      split_ifs <;> simp
  · rcases t with _ | ⟨b1, _ | ⟨b2, _ | ⟨b3, t⟩⟩⟩
    · rw [decode_one _ h0]; simp
    · rw [decode_pair _ _ (Or.inr hx) hx']; simp
    · rw [decode_triple _ _ _ hx hx']; simp
    · rw [List.cons_append, List.cons_append, List.cons_append, List.cons_append,
        decode_four _ _ _ _ _ _ rfl hx' hx, decode_four _ _ _ _ _ _ rfl hx' hx]
      split_ifs <;> simp

theorem decode_width_pos (s : GoString) (h : s ≠ []) : 1 ≤ (DecodeRuneInString s).2 := by
  rcases s with _ | ⟨b0, t⟩
  · exact absurd rfl h
  · exact (decode_append_and_pos b0 t []).1

theorem decode_append (u v : GoString) (h : 2 ≤ (DecodeRuneInString u).2) :
    DecodeRuneInString (u ++ v) = DecodeRuneInString u := by
  rcases u with _ | ⟨b0, t⟩
  · simp [DecodeRuneInString] at h
  · exact (decode_append_and_pos b0 t v).2 h

theorem decode_width_le (s : GoString) : (DecodeRuneInString s).2 ≤ s.length := by
  rcases s with _ | ⟨b0, t⟩
  · simp [DecodeRuneInString]
  rcases first_classes b0 with h0 | hx | ⟨h0, hx⟩ | ⟨h0, hx', hx⟩ | ⟨h0, hx', hx⟩
  · rw [decode_ascii _ _ h0]; simp
  · rw [decode_xx _ _ hx]; simp
  · rcases t with _ | ⟨b1, t⟩
    · rw [decode_one _ h0]; simp
    · rw [decode_two _ _ _ hx]
      split_ifs <;> simp
  · rcases t with _ | ⟨b1, _ | ⟨b2, t⟩⟩
    · rw [decode_one _ h0]; simp
    · rw [decode_pair _ _ (Or.inl hx) hx']; simp
    · rw [decode_three _ _ _ _ _ rfl hx' hx]
      split_ifs <;> simp
  · rcases t with _ | ⟨b1, _ | ⟨b2, _ | ⟨b3, t⟩⟩⟩
    · rw [decode_one _ h0]; simp
    · rw [decode_pair _ _ (Or.inr hx) hx']; simp
    · rw [decode_triple _ _ _ hx hx']; simp
    · rw [decode_four _ _ _ _ _ _ rfl hx' hx]
      split_ifs <;> simp

/-- A byte from `0x80` up that is followed by nothing, or by the start of a white-space
rune, is decoded as a rune of width one. -/
theorem decode_width_one (b : Byte) (rest : GoString) (hb : 0x80 ≤ b.val)
    (hrest : rest = [] ∨ 0 < spaceWidth rest) : (DecodeRuneInString (b :: rest)).2 = 1 := by
  rcases rest with _ | ⟨c, rest⟩
  · rw [decode_one _ hb]
  have hc : c.val < 0x80 ∨ 0xC2 ≤ c.val := by
    rcases hrest with h | h
    · exact absurd h (by simp)
    · exact spaceWidth_head c rest h
  rcases first_cases b with ⟨h0, hx⟩ | ⟨h0, hx⟩ | ⟨h0, h0', hx⟩ | ⟨h0, hx⟩ | ⟨h0, hx⟩
    | ⟨h0, hx⟩ | ⟨h0, hx⟩ | ⟨h0, h0', hx⟩ | ⟨h0, hx⟩
  · omega
  · rw [decode_xx _ _ hx]
  all_goals
    simp only [DecodeRuneInString, hx, acceptRanges]
    norm_num
    split_ifs <;> first | rfl | (exfalso; omega)

theorem drop_eq_getD_cons (l : GoString) (n : Nat) (h : n < l.length) :
    l.drop n = l.getD n 0 :: l.drop (n + 1) := by
  rw [List.getD_eq_getElem _ _ h]; exact List.drop_eq_getElem_cons h

theorem lastRuneStart_le (s : GoString) (lim : Int) :
    ∀ (fuel : Nat) (st : Int), lastRuneStart s lim fuel st ≤ st := by
  intro fuel
  induction fuel with
  | zero => intro st; simp [lastRuneStart]
  | succ n ih =>
    intro st
    unfold lastRuneStart
    split_ifs
    · exact le_refl _
    · exact le_trans (ih _) (by omega)
    · exact le_refl _

theorem decodeLast_cases (p : GoString) (hp : p ≠ []) :
    ((p.getD (p.length - 1) 0).val < 0x80 ∧
        DecodeLastRuneInString p = ((p.getD (p.length - 1) 0).val, 1))
    ∨ (0x80 ≤ (p.getD (p.length - 1) 0).val ∧ DecodeLastRuneInString p = (RuneError, 1))
    ∨ (0x80 ≤ (p.getD (p.length - 1) 0).val ∧ 2 ≤ (DecodeLastRuneInString p).2 ∧
        (DecodeLastRuneInString p).2 ≤ p.length ∧
        DecodeRuneInString (p.drop (p.length - (DecodeLastRuneInString p).2)) =
          DecodeLastRuneInString p) := by
  have hlen : p.length ≠ 0 := by simpa using hp
  by_cases hl : (p.getD (p.length - 1) 0).val < 0x80
  · left
    refine ⟨hl, ?_⟩
    unfold DecodeLastRuneInString
    simp only [if_neg hlen, RuneSelf, if_pos hl]
  · right
    have hl' : 0x80 ≤ (p.getD (p.length - 1) 0).val := by omega
    unfold DecodeLastRuneInString
    simp only [if_neg hlen, RuneSelf, if_neg hl]
    generalize hlim : (if (p.length : Int) - UTFMax < 0 then (0 : Int)
      else (p.length : Int) - UTFMax) = lim
    have hst := lastRuneStart_le p lim UTFMax ((p.length : Int) - 2)
    generalize lastRuneStart p lim UTFMax ((p.length : Int) - 2) = st0 at hst
    generalize hstart : (if st0 < 0 then 0 else st0.toNat) = start
    have hstart_lt : start < p.length := by
      rw [← hstart]; split_ifs <;> omega
    rcases hd : DecodeRuneInString (p.drop start) with ⟨r, size⟩
    simp only []
    have hne : p.drop start ≠ [] := by
      intro h
      have := congrArg List.length h
      simp at this; omega
    have hpos := decode_width_pos _ hne
    rw [hd] at hpos
    simp only at hpos
    by_cases he : start + size = p.length
    · rw [if_neg (by simpa using he)]
      by_cases h1 : size = 1
      · left
        subst h1
        refine ⟨hl', ?_⟩
        have hs : start = p.length - 1 := by omega
        have hdrop : p.drop start = [p.getD (p.length - 1) 0] := by
          rw [hs, drop_eq_getD_cons p _ (by omega), List.drop_of_length_le (by omega)]
        rw [hdrop, decode_one _ hl'] at hd
        simp at hd
        rw [← hd]
      · right
        refine ⟨hl', by simp; omega, by simp; omega, ?_⟩
        simp only
        have : p.length - size = start := by omega
        rw [this, hd]
    · left
      rw [if_pos (by simpa using he)]
      exact ⟨hl', rfl⟩

theorem stripFront_nil (fuel : Nat) : stripFront fuel [] = [] := by
  cases fuel <;> simp [stripFront, spaceWidth]

theorem backWidth_nil : backWidth [] = 0 := by decide

theorem stripBack_nil (fuel : Nat) : stripBack fuel [] = [] := by
  cases fuel <;> simp [stripBack, backWidth_nil]

theorem indexFunc_spec :
    ∀ (fuel i : Nat) (rest : GoString), rest.length ≤ fuel →
      (indexFunc IsSpace false fuel i rest = -1 ∧ stripFront fuel rest = [])
      ∨ ∃ k : Nat, indexFunc IsSpace false fuel i rest = ((i + k : Nat) : Int) ∧
          stripFront fuel rest = rest.drop k := by
  intro fuel
  induction fuel with
  | zero =>
    intro i rest h
    left
    have : rest = [] := List.length_eq_zero.mp (by omega)
    subst this
    simp [indexFunc, stripFront]
  | succ n ih =>
    intro i rest h
    by_cases hr : rest = []
    · left; subst hr; simp [indexFunc, stripFront_nil]
    have hw := spaceWidth_eq rest
    rcases hd : DecodeRuneInString rest with ⟨r, size⟩
    rw [hd] at hw
    simp only at hw
    have hpos := decode_width_pos rest hr
    rw [hd] at hpos
    simp only at hpos
    simp only [indexFunc, if_neg hr, hd, stripFront]
    by_cases hs : IsSpace r = false
    · right
      rw [hs] at hw
      simp only [Bool.false_eq_true, if_false] at hw
      exact ⟨0, by simp [hs], by simp [hw]⟩
    · have hs' : IsSpace r = true := by simpa using hs
      rw [hs', if_pos rfl] at hw
      rw [if_neg hs, if_neg (by omega), hw]
      have hlen : (rest.drop size).length ≤ n := by simp; omega
      rcases ih (i + size) (rest.drop size) hlen with ⟨h1, h2⟩ | ⟨k, h1, h2⟩
      · left; exact ⟨h1, h2⟩
      · right
        refine ⟨size + k, ?_, ?_⟩
        · rw [h1]; congr 1; omega
        · rw [h2, List.drop_drop]

theorem TrimLeftFunc_eq (s : GoString) : TrimLeftFunc s IsSpace = stripFront s.length s := by
  unfold TrimLeftFunc
  rcases indexFunc_spec s.length 0 s (le_refl _) with ⟨h1, h2⟩ | ⟨k, h1, h2⟩
  · simp [h1, h2]
  · simp only [h1, h2]
    rw [if_neg (by omega)]
    simp

theorem TrimRightFunc_def (s : GoString) (f : Nat → Bool) :
    TrimRightFunc s f = s.take (rightEnd s (lastIndexFunc s f false s.length s.length)).toNat :=
  rfl

theorem decodeLast_width (p : GoString) (hp : p ≠ []) :
    1 ≤ (DecodeLastRuneInString p).2 ∧ (DecodeLastRuneInString p).2 ≤ p.length := by
  have hlen : 1 ≤ p.length := by
    rcases p with _ | ⟨a, p⟩
    · exact absurd rfl hp
    · simp
  rcases decodeLast_cases p hp with ⟨_, h⟩ | ⟨_, h⟩ | ⟨_, h1, h2, _⟩
  · rw [h]; exact ⟨le_refl _, hlen⟩
  · rw [h]; exact ⟨le_refl _, hlen⟩
  · exact ⟨by omega, h2⟩

/-- A trailing white-space rune, read backwards, is a white-space rune read forwards
from where it starts. -/
theorem backWidth_spaceWidth (p : GoString) (h : 0 < backWidth p) :
    backWidth p ≤ p.length ∧ spaceWidth (p.drop (p.length - backWidth p)) = backWidth p := by
  have hp : p ≠ [] := by
    intro h'; rw [h', backWidth_nil] at h; exact absurd h (by decide)
  have hlen : 1 ≤ p.length := by
    rcases p with _ | ⟨a, p⟩
    · exact absurd rfl hp
    · simp
  unfold backWidth at h ⊢
  by_cases hs : IsSpace (DecodeLastRuneInString p).1 = true
  · rw [if_pos hs] at h ⊢
    refine ⟨(decodeLast_width p hp).2, ?_⟩
    rcases decodeLast_cases p hp with ⟨hl, hd⟩ | ⟨_, hd⟩ | ⟨_, h1, h2, hd⟩
    · rw [hd] at hs ⊢
      simp only at hs ⊢
      rw [drop_eq_getD_cons p _ (by omega), spaceWidth_eq, decode_ascii _ _ hl]
      simp only
      rw [if_pos hs]
    · rw [hd, IsSpace_RuneError] at hs; exact absurd hs (by decide)
    · rw [spaceWidth_eq, hd, if_pos hs]
  · rw [if_neg hs] at h; exact absurd h (by decide)

theorem lastIndexFunc_spec (s : GoString) :
    ∀ (fuel i : Nat), i ≤ fuel → i ≤ s.length →
      (s.drop i = [] ∨ 0 < spaceWidth (s.drop i)) →
      s.take (rightEnd s (lastIndexFunc s IsSpace false fuel i)).toNat
        = stripBack fuel (s.take i) := by
  intro fuel
  induction fuel with
  | zero =>
    intro i hi _ _
    have : i = 0 := by omega
    subst this
    simp [lastIndexFunc, rightEnd, stripBack]
  | succ n ih =>
    intro i hi hil hP
    by_cases hi0 : i = 0
    · subst hi0
      simp [lastIndexFunc, rightEnd, stripBack_nil]
    have hipos : i > 0 := by omega
    have hplen : (s.take i).length = i := by rw [List.length_take]; omega
    have hp : s.take i ≠ [] := by
      intro h
      rw [h] at hplen
      simp at hplen; omega
    have hw := decodeLast_width (s.take i) hp
    have hcases := decodeLast_cases (s.take i) hp
    have hlast : (s.take i).getD ((s.take i).length - 1) 0 = s.getD (i - 1) 0 := by
      rw [hplen, List.getD_eq_getElem _ _ (by omega), List.getD_eq_getElem _ _ (by omega)]
      simp
    rw [hlast, hplen] at hcases
    rw [hplen] at hw
    have hsplit : ∀ j, j ≤ i → s.drop j = (s.take i).drop j ++ s.drop i := by
      intro j hj
      conv_lhs => rw [← List.take_append_drop i s]
      rw [List.drop_append_of_le_length (by omega)]
    simp only [lastIndexFunc, if_pos hipos, stripBack]
    rcases hd : DecodeLastRuneInString (s.take i) with ⟨r, size⟩
    rw [hd] at hw hcases
    simp only at hw hcases ⊢
    by_cases hs : IsSpace r = false
    · have hbw : backWidth (s.take i) = 0 := by simp [backWidth, hd, hs]
      rw [if_pos hs, if_pos hbw]
      have hend : rightEnd s ((i - size : Nat) : Int) = (i : Int) := by
        unfold rightEnd
        simp only [Int.toNat_ofNat, RuneSelf]
        rcases hcases with ⟨hl, hd'⟩ | ⟨hl, hd'⟩ | ⟨hl, h1, h2, hd'⟩
        · have hsz : size = 1 := by simpa using congrArg Prod.snd hd'
          subst hsz
          rw [if_neg (by omega)]; omega
        · have hsz : size = 1 := by simpa using congrArg Prod.snd hd'
          subst hsz
          rw [if_pos ⟨by omega, hl⟩, drop_eq_getD_cons s _ (by omega)]
          have : i - 1 + 1 = i := by omega
          rw [this, decode_width_one _ _ hl hP]
          omega
        · have hdec : DecodeRuneInString (s.drop (i - size)) = (r, size) := by
            rw [hsplit _ (by omega), decode_append _ _ (by rw [hd']; exact h1), hd']
          have hhead : 0x80 ≤ (s.getD (i - size) 0).val := by
            by_contra hc
            rw [drop_eq_getD_cons s _ (by omega), decode_ascii _ _ (by omega)] at hdec
            have : size = 1 := by simpa using (congrArg Prod.snd hdec).symm
            omega
          rw [if_pos ⟨by omega, hhead⟩, hdec]
          simp only
          omega
      rw [hend]; simp
    · have hs' : IsSpace r = true := by simpa using hs
      have hbw : backWidth (s.take i) = size := by simp [backWidth, hd, hs']
      rw [if_neg hs, if_neg (by omega), hbw, hplen, List.take_take,
        min_eq_left (by omega)]
      apply ih (i - size) (by omega) (by omega)
      right
      have := backWidth_spaceWidth (s.take i) (by omega)
      rw [hbw, hplen] at this
      rw [hsplit _ (by omega), spaceWidth_append _ _ (by omega)]
      omega

theorem TrimRightFunc_eq (s : GoString) : TrimRightFunc s IsSpace = stripBack s.length s := by
  rw [TrimRightFunc_def, lastIndexFunc_spec s s.length s.length (le_refl _) (le_refl _)
    (by simp)]
  simp

theorem TrimFunc_eq (s : GoString) :
    TrimFunc s IsSpace = stripBack (stripFront s.length s).length (stripFront s.length s) := by
  unfold TrimFunc
  rw [TrimLeftFunc_eq, TrimRightFunc_eq]

theorem spaceWidth_nil : spaceWidth [] = 0 := rfl

theorem stripFront_of_zero (fuel : Nat) (s : GoString) (h : spaceWidth s = 0) :
    stripFront fuel s = s := by
  cases fuel <;> simp [stripFront, h]

theorem stripBack_of_zero (fuel : Nat) (s : GoString) (h : backWidth s = 0) :
    stripBack fuel s = s := by
  cases fuel <;> simp [stripBack, h]

theorem spaceWidth_stripFront :
    ∀ (fuel : Nat) (s : GoString), s.length ≤ fuel → spaceWidth (stripFront fuel s) = 0 := by
  intro fuel
  induction fuel with
  | zero =>
    intro s h
    have : s = [] := List.length_eq_zero.mp (by omega)
    subst this; rfl
  | succ n ih =>
    intro s h
    simp only [stripFront]
    split_ifs with h0
    · exact h0
    · apply ih
      rw [List.length_drop]; omega

theorem backWidth_stripBack :
    ∀ (fuel : Nat) (s : GoString), s.length ≤ fuel → backWidth (stripBack fuel s) = 0 := by
  intro fuel
  induction fuel with
  | zero =>
    intro s h
    have : s = [] := List.length_eq_zero.mp (by omega)
    subst this; exact backWidth_nil
  | succ n ih =>
    intro s h
    simp only [stripBack]
    split_ifs with h0
    · exact h0
    · apply ih
      rw [List.length_take]; omega

theorem stripBack_initial : ∀ (fuel : Nat) (s : GoString), stripBack fuel s <+: s := by
  intro fuel
  induction fuel with
  | zero => intro s; exact List.prefix_refl _
  | succ n ih =>
    intro s
    simp only [stripBack]
    split_ifs
    · exact List.prefix_refl _
    · exact (ih _).trans ( List.take_prefix _ _)

theorem spaceWidth_initial (u s : GoString) (h : u <+: s) (hs : spaceWidth s = 0) :
    spaceWidth u = 0 := by
  obtain ⟨v, rfl⟩ := h
  by_contra hc
  rw [spaceWidth_append u v (by omega)] at hs
  exact hc hs

/-- If stripping from the back leaves nothing, the string starts with a white-space
rune. -/
theorem stripBack_eq_nil :
    ∀ (fuel : Nat) (s : GoString), s.length ≤ fuel → stripBack fuel s = [] →
      s = [] ∨ 0 < spaceWidth s := by
  intro fuel
  induction fuel with
  | zero =>
    intro s h _
    left; exact List.length_eq_zero.mp (by omega)
  | succ n ih =>
    intro s h he
    simp only [stripBack] at he
    split_ifs at he with h0
    · left; exact he
    · right
      have hb := backWidth_spaceWidth s (by omega)
      rcases ih _ (by rw [List.length_take]; omega) he with h1 | h1
      · have hl := congrArg List.length h1
        rw [List.length_take] at hl
        simp only [List.length_nil] at hl
        have hk : s.length - backWidth s = 0 := by omega
        rw [hk, List.drop_zero] at hb
        omega
      · have := spaceWidth_append (s.take (s.length - backWidth s))
          (s.drop (s.length - backWidth s)) h1
        rw [List.take_append_drop] at this
        omega

theorem decodeLast_ascii (p : GoString) (hp : p ≠ [])
    (h : (p.getD (p.length - 1) 0).val < 0x80) :
    DecodeLastRuneInString p = ((p.getD (p.length - 1) 0).val, 1) := by
  rcases decodeLast_cases p hp with ⟨_, hd⟩ | ⟨hl, _⟩ | ⟨hl, _⟩
  · exact hd
  · omega
  · omega

theorem asciiSpace_iff (c : Byte) (h : c.val < 0x80) :
    asciiSpace c = 0 ↔ IsSpace c.val = false := by
  rw [Bool.eq_false_iff, Ne, IsSpace_ascii c h]
  unfold asciiSpace
  split_ifs with h1
  · simp [h1]
  · simp [h1]

theorem trimSpaceStop_eq (s : GoString) :
    ∀ stop : Nat, stop ≤ s.length → trimSpaceStop s stop = stripBack stop (s.take stop) := by
  intro stop
  induction stop with
  | zero => intro _; simp [trimSpaceStop, stripBack]
  | succ n ih =>
    intro h
    have hplen : (s.take (n + 1)).length = n + 1 := by rw [List.length_take]; omega
    have hp : s.take (n + 1) ≠ [] := by
      intro h'; rw [h'] at hplen; simp at hplen
    have hlast : (s.take (n + 1)).getD ((s.take (n + 1)).length - 1) 0 = s.getD n 0 := by
      rw [hplen, List.getD_eq_getElem _ _ (by omega), List.getD_eq_getElem _ _ (by omega)]
      simp
    simp only [trimSpaceStop, RuneSelf]
    split_ifs with h1 h2
    · rw [TrimRightFunc_eq, hplen]
    · have hd := decodeLast_ascii (s.take (n + 1)) hp (by rw [hlast]; omega)
      rw [hlast] at hd
      have hb : backWidth (s.take (n + 1)) = 0 := by
        unfold backWidth
        rw [hd]
        simp only
        rw [(asciiSpace_iff _ (by omega)).1 h2]
        simp
      rw [stripBack_of_zero _ _ hb]
    · have hd := decodeLast_ascii (s.take (n + 1)) hp (by rw [hlast]; omega)
      rw [hlast] at hd
      have hsp : IsSpace (s.getD n 0).val = true := by
        by_contra hc
        exact h2 ((asciiSpace_iff _ (by omega)).2 (by simpa using hc))
      have hb : backWidth (s.take (n + 1)) = 1 := by
        unfold backWidth
        rw [hd]
        simp only
        rw [if_pos hsp]
      rw [ih (by omega)]
      simp only [stripBack, hb, hplen]
      rw [if_neg (by decide), List.take_take]
      simp

theorem TrimSpace_eq (s : GoString) : TrimSpace s = trimSpec s := by
  unfold TrimSpace trimSpec
  induction s with
  | nil => simp [trimSpaceStart, trimSpaceStop, stripFront, stripBack]
  | cons c t ih =>
    simp only [trimSpaceStart, RuneSelf]
    split_ifs with h1 h2
    · exact TrimFunc_eq _
    · have hsp : IsSpace c.val = false := (asciiSpace_iff _ (by omega)).1 h2
      have hw : spaceWidth (c :: t) = 0 := by
        rw [spaceWidth_eq, decode_ascii _ _ (by omega)]
        simp [hsp]
      rw [stripFront_of_zero _ _ hw, trimSpaceStop_eq _ _ (le_refl _), List.take_length]
    · have hsp : IsSpace c.val = true := by
        by_contra hc
        exact h2 ((asciiSpace_iff _ (by omega)).2 (by simpa using hc))
      have hw : spaceWidth (c :: t) = 1 := by
        rw [spaceWidth_eq, decode_ascii _ _ (by omega)]
        simp [hsp]
      rw [ih]
      simp [stripFront, hw]

/-- The result of `TrimSpace` neither starts nor ends with a white-space rune. -/
theorem TrimSpace_widths (s : GoString) :
    spaceWidth (TrimSpace s) = 0 ∧ backWidth (TrimSpace s) = 0 := by
  rw [TrimSpace_eq]
  unfold trimSpec
  exact ⟨spaceWidth_initial _ _ (stripBack_initial _ _)
      (spaceWidth_stripFront _ _ (le_refl _)),
    backWidth_stripBack _ _ (le_refl _)⟩

/-- A string that neither starts nor ends with a white-space rune is left alone. -/
theorem TrimSpace_of_widths (s : GoString) (h1 : spaceWidth s = 0) (h2 : backWidth s = 0) :
    TrimSpace s = s := by
  rw [TrimSpace_eq]
  unfold trimSpec
  rw [stripFront_of_zero _ _ h1, stripBack_of_zero _ _ h2]

/-- Trimming twice is trimming once. -/
theorem TrimSpace_idem (s : GoString) : TrimSpace (TrimSpace s) = TrimSpace s :=
  TrimSpace_of_widths _ (TrimSpace_widths s).1 (TrimSpace_widths s).2

theorem TrimSpace_fixed_iff (s : GoString) :
    TrimSpace s = s ↔ spaceWidth s = 0 ∧ backWidth s = 0 := by
  constructor
  · intro h; rw [← h]; exact TrimSpace_widths s
  · intro h; exact TrimSpace_of_widths s h.1 h.2

theorem TrimSpace_eq_nil_iff (s : GoString) :
    TrimSpace s = [] ↔ stripFront s.length s = [] := by
  rw [TrimSpace_eq]
  unfold trimSpec
  constructor
  · intro h
    rcases stripBack_eq_nil _ _ (le_refl _) h with h1 | h1
    · exact h1
    · have := spaceWidth_stripFront s.length s (le_refl _)
      omega
  · intro h; rw [h]; exact stripBack_nil _

theorem stripFront_newline (rest : GoString) :
    ∀ (fuel' fuel : Nat) (title : GoString), title.length ≤ fuel' →
      stripFront fuel (title ++ (0x0A : Byte) :: rest) = [] → stripFront fuel' title = [] := by
  intro fuel'
  induction fuel' with
  | zero =>
    intro fuel title h _
    have : title = [] := List.length_eq_zero.mp (by omega)
    subst this; rfl
  | succ n ih =>
    intro fuel title h he
    by_cases ht : title = []
    · subst ht; exact stripFront_nil _
    have hw := spaceWidth_append_newline title rest ht
    simp only [stripFront]
    by_cases h0 : spaceWidth title = 0
    · rw [stripFront_of_zero _ _ (by rw [hw]; exact h0)] at he
      simp at he
    · rw [if_neg h0]
      cases fuel with
      | zero => simp [stripFront] at he
      | succ m =>
        simp only [stripFront, hw, if_neg h0] at he
        have hle := spaceWidth_le_length title
        rw [List.drop_append_of_le_length hle] at he
        exact ih m _ (by rw [List.length_drop]; omega) he

/-- A title with something other than white space in it keeps a chunk from being
all white space: what follows the title starts with a newline. -/
theorem TrimSpace_append_newline (title rest : GoString) (h : TrimSpace title ≠ []) :
    TrimSpace (title ++ (0x0A : Byte) :: rest) ≠ [] := by
  intro he
  rw [TrimSpace_eq_nil_iff] at he
  exact h ((TrimSpace_eq_nil_iff title).2 (stripFront_newline rest _ _ title (le_refl _) he))

/-- A trimmed, non-empty string does not end with an ASCII white-space byte. -/
theorem TrimSpace_last (s : GoString) (h : TrimSpace s ≠ []) :
    asciiSpace ((TrimSpace s).getD ((TrimSpace s).length - 1) 0) = 0 := by
  by_contra hc
  have hlt : ((TrimSpace s).getD ((TrimSpace s).length - 1) 0).val < 0x80 := by
    unfold asciiSpace at hc
    split_ifs at hc with h1
    · omega
    · exact absurd rfl hc
  have hd := decodeLast_ascii _ h hlt
  have hsp : IsSpace ((TrimSpace s).getD ((TrimSpace s).length - 1) 0).val = true := by
    by_contra hn
    exact hc ((asciiSpace_iff _ hlt).2 (by simpa using hn))
  have hb := (TrimSpace_widths s).2
  unfold backWidth at hb
  rw [hd] at hb
  simp only at hb
  rw [if_pos hsp] at hb
  exact absurd hb (by decide)


/-! ### Sets of strings, sorting -/

theorem sortStrings_sorted (l : List GoString) :
    List.Sorted (fun a b => a ≤ b) (sortStrings l) :=
  List.sorted_insertionSort _ l

theorem sortStrings_perm (l : List GoString) : (sortStrings l).Perm l :=
  List.perm_insertionSort _ l

/-- The order on strings is the lexicographic order of their bytes. -/
theorem lt_iff_lex (a b : GoString) : a < b ↔ List.Lex (fun x y : Byte => x < y) a b :=
  Iff.rfl

/-- There is one sorted arrangement of a list of strings: whatever algorithm
`sort.Strings` runs, and whatever order the keys of a map are ranged over in, the
sorted list is `sortStrings`. -/
theorem sortStrings_unique (l l' : List GoString) (h : l'.Perm l)
    (hs : List.Sorted (fun a b => a ≤ b) l') : l' = sortStrings l :=
  List.eq_of_perm_of_sorted (h.trans (sortStrings_perm l).symm) hs (sortStrings_sorted l)

theorem add_mem (m : StringSet) (s x : GoString) : x ∈ m.add s ↔ x ∈ m ∨ x = s := by
  unfold StringSet.add
  split_ifs with h
  · constructor
    · intro hx; exact Or.inl hx
    · rintro (hx | rfl)
      · exact hx
      · exact h
  · simp

theorem add_nodup (m : StringSet) (s : GoString) (h : m.Nodup) : (m.add s).Nodup := by
  unfold StringSet.add
  split_ifs with hs
  · exact h
  · exact List.Nodup.append h (List.nodup_singleton s) (by simpa using hs)

theorem foldl_append_singleton (m out : List GoString) :
    m.foldl (fun out s => out ++ [s]) out = out ++ m := by
  induction m generalizing out with
  | nil => simp
  | cons a m ih => simp [ih]

/-- The keys of the map that `uniqueSorted` fills, starting from the keys `m`. -/
theorem keys_spec (in_ : List GoString) :
    ∀ m : StringSet, m.Nodup →
      (in_.foldl (fun m s => let s := TrimSpace s; if s ≠ [] then m.add s else m) m).Nodup ∧
      ∀ x, x ∈ in_.foldl (fun m s => let s := TrimSpace s; if s ≠ [] then m.add s else m) m
        ↔ x ∈ m ∨ (x ≠ [] ∧ ∃ e ∈ in_, TrimSpace e = x) := by
  induction in_ with
  | nil => intro m hm; simp [hm]
  | cons a l ih =>
    intro m hm
    simp only [List.foldl_cons]
    by_cases ha : TrimSpace a ≠ []
    · simp only [if_pos ha]
      obtain ⟨h1, h2⟩ := ih (m.add (TrimSpace a)) (add_nodup _ _ hm)
      refine ⟨h1, fun x => ?_⟩
      rw [h2, add_mem]
      constructor
      · rintro ((hx | rfl) | ⟨hx, e, he, rfl⟩)
        · exact Or.inl hx
        · exact Or.inr ⟨ha, a, List.mem_cons_self _ _, rfl⟩
        · exact Or.inr ⟨hx, e, List.mem_cons_of_mem _ he, rfl⟩
      · rintro (hx | ⟨hx, e, he, rfl⟩)
        · exact Or.inl (Or.inl hx)
        · rcases List.mem_cons.1 he with rfl | he
          · exact Or.inl (Or.inr rfl)
          · exact Or.inr ⟨hx, e, he, rfl⟩
    · simp only [if_neg ha]
      obtain ⟨h1, h2⟩ := ih m hm
      refine ⟨h1, fun x => ?_⟩
      rw [h2]
      constructor
      · rintro (hx | ⟨hx, e, he, rfl⟩)
        · exact Or.inl hx
        · exact Or.inr ⟨hx, e, List.mem_cons_of_mem _ he, rfl⟩
      · rintro (hx | ⟨hx, e, he, rfl⟩)
        · exact Or.inl hx
        · rcases List.mem_cons.1 he with rfl | he
          · exact absurd hx ha
          · exact Or.inr ⟨hx, e, he, rfl⟩

theorem mem_uniqueSorted (in_ : List GoString) (x : GoString) :
    x ∈ uniqueSorted in_ ↔ x ≠ [] ∧ ∃ e ∈ in_, TrimSpace e = x := by
  unfold uniqueSorted
  simp only [foldl_append_singleton, List.nil_append]
  rw [(sortStrings_perm _).mem_iff, (keys_spec in_ [] List.nodup_nil).2]
  simp

theorem uniqueSorted_nodup (in_ : List GoString) : (uniqueSorted in_).Nodup := by
  unfold uniqueSorted
  simp only [foldl_append_singleton, List.nil_append]
  exact (sortStrings_perm _).nodup_iff.2 (keys_spec in_ [] List.nodup_nil).1

theorem uniqueSorted_sorted (in_ : List GoString) :
    List.Sorted (fun a b => a < b) (uniqueSorted in_) := by
  have h1 : List.Sorted (fun a b => a ≤ b) (uniqueSorted in_) := sortStrings_sorted _
  have h2 := uniqueSorted_nodup in_
  exact (List.Sorted.lt_of_le h1 h2)

/-- Two results of `uniqueSorted` with the same elements are the same list. -/
theorem uniqueSorted_ext (a b : List GoString)
    (h : ∀ x, x ∈ uniqueSorted a ↔ x ∈ uniqueSorted b) : uniqueSorted a = uniqueSorted b :=
  List.eq_of_perm_of_sorted
    ((List.perm_ext_iff_of_nodup (uniqueSorted_nodup a) (uniqueSorted_nodup b)).2 h)
    (sortStrings_sorted _) (sortStrings_sorted _)

theorem mem_uniqueSorted_trim (in_ : List GoString) (x : GoString) (h : x ∈ uniqueSorted in_) :
    x ≠ [] ∧ TrimSpace x = x := by
  obtain ⟨h1, e, _, rfl⟩ := (mem_uniqueSorted in_ x).1 h
  exact ⟨h1, TrimSpace_idem e⟩

theorem mem_merge (old now : List GoString) (x : GoString) :
    x ∈ merge old now ↔ x ≠ [] ∧ ∃ e ∈ old ++ now, TrimSpace e = x :=
  mem_uniqueSorted _ x

/-! ### `diff` -/

theorem oldSet_mem (old : List GoString) :
    ∀ (m : StringSet) (x : GoString),
      x ∈ old.foldl (fun m s => m.add s) m ↔ x ∈ m ∨ x ∈ old := by
  induction old with
  | nil => intro m x; simp
  | cons a l ih =>
    intro m x
    simp only [List.foldl_cons, ih, add_mem, List.mem_cons]
    tauto

theorem diff_loop (oldSet : StringSet) (now : List GoString) :
    ∀ r : List GoString × List GoString,
      now.foldl (fun r s => if s ∈ oldSet then (r.1, r.2 ++ [s]) else (r.1 ++ [s], r.2)) r
        = (r.1 ++ now.filter (fun s => decide (s ∉ oldSet)),
            r.2 ++ now.filter (fun s => decide (s ∈ oldSet))) := by
  induction now with
  | nil => intro r; simp
  | cons a l ih =>
    intro r
    simp only [List.foldl_cons, ih]
    by_cases h : a ∈ oldSet
    · simp [h]
    · simp [h]

theorem diff_eq_filter (old now : List GoString) :
    diff old now =
      (now.filter (fun s => decide (s ∉ old)), now.filter (fun s => decide (s ∈ old))) := by
  unfold diff
  simp only [diff_loop, List.nil_append]
  have h : ∀ x, x ∈ old.foldl (fun (m : StringSet) s => m.add s) [] ↔ x ∈ old := by
    intro x; rw [oldSet_mem]; simp
  simp only [h]

theorem count_filter_split (old now : List GoString) (s : GoString) :
    (now.filter (fun s => decide (s ∉ old))).count s
      + (now.filter (fun s => decide (s ∈ old))).count s = now.count s := by
  induction now with
  | nil => simp
  | cons a l ih =>
    by_cases ha : a ∈ old
    · rw [List.filter_cons_of_neg (by simpa using ha), List.filter_cons_of_pos (by simpa using ha),
        List.count_cons, List.count_cons]
      omega
    · rw [List.filter_cons_of_pos (by simpa using ha), List.filter_cons_of_neg (by simpa using ha),
        List.count_cons, List.count_cons]
      omega

theorem length_filter_split (old now : List GoString) :
    (now.filter (fun s => decide (s ∉ old))).length
      + (now.filter (fun s => decide (s ∈ old))).length = now.length := by
  induction now with
  | nil => simp
  | cons a l ih =>
    by_cases ha : a ∈ old
    · rw [List.filter_cons_of_neg (by simpa using ha), List.filter_cons_of_pos (by simpa using ha),
        List.length_cons, List.length_cons]
      omega
    · rw [List.filter_cons_of_pos (by simpa using ha), List.filter_cons_of_neg (by simpa using ha),
        List.length_cons, List.length_cons]
      omega

/-- Claim C1. For all lists `old` and `now`, `diff old now` returns as `added` the list
`now` with exactly the elements that occur in `old` removed, and as `existing` the list
`now` with exactly the elements that do not occur in `old` removed, both in the order
of `now`; every occurrence in `now` goes to exactly one of the two, no string is in
both, and `diff old []` is a pair of empty lists. -/
theorem C1_diff_partitions_now (old now : List GoString) :
    (diff old now).1 = now.filter (fun s => decide (s ∉ old))
    ∧ (diff old now).2 = now.filter (fun s => decide (s ∈ old))
    ∧ (∀ s, (diff old now).1.count s + (diff old now).2.count s = now.count s)
    ∧ (diff old now).1.length + (diff old now).2.length = now.length
    ∧ (∀ s, ¬ (s ∈ (diff old now).1 ∧ s ∈ (diff old now).2))
    ∧ diff old [] = ([], []) := by
  rw [diff_eq_filter]
  refine ⟨rfl, rfl, ?_, ?_, ?_, ?_⟩
  · intro s; exact count_filter_split old now s
  · exact length_filter_split old now
  · intro s
    simp only [List.mem_filter, decide_eq_true_eq]
    tauto
  · rw [diff_eq_filter]; simp

/-! ### The inventory: `uniqueSorted`, `merge` -/

/-- Claim C2. For every list `in_`, `uniqueSorted in_` is strictly ascending in the
byte-wise lexicographic order, so sorted and without duplicates; a string is in it
exactly when it is non-empty and is `TrimSpace e` for some element `e` of `in_`; in
particular the inventory `uniqueSorted (oldList ++ nowList)` that `scanOne` writes is
sorted and has no duplicates. -/
theorem C2_uniqueSorted_strictly_ascending (in_ : List GoString) :
    List.Sorted (fun a b => a < b) (uniqueSorted in_)
    ∧ List.Sorted (fun a b => a ≤ b) (uniqueSorted in_)
    ∧ (uniqueSorted in_).Nodup
    ∧ (∀ s, s ∈ uniqueSorted in_ ↔ (s ≠ [] ∧ ∃ e, e ∈ in_ ∧ TrimSpace e = s))
    ∧ (∀ oldList nowList : List GoString,
        merge oldList nowList = uniqueSorted (oldList ++ nowList)
        ∧ List.Sorted (fun a b => a < b) (merge oldList nowList)
        ∧ (merge oldList nowList).Nodup) := by
  refine ⟨uniqueSorted_sorted in_, sortStrings_sorted _, uniqueSorted_nodup in_, ?_, ?_⟩
  · intro s
    rw [mem_uniqueSorted]
  · intro oldList nowList
    exact ⟨rfl, uniqueSorted_sorted _, uniqueSorted_nodup _⟩

/-- Claim C3. A scan never shrinks the inventory: when every entry of `oldList` is
non-empty and has no leading or trailing white space, as the entries that `readLines`
returns are, every entry of `oldList` is in the inventory
`uniqueSorted (oldList ++ nowList)` that `scanOne` writes back, for every `nowList`. -/
theorem C3_scan_never_shrinks (oldList nowList : List GoString)
    (h : ∀ e, e ∈ oldList → e ≠ [] ∧ TrimSpace e = e) :
    ∀ e, e ∈ oldList → e ∈ uniqueSorted (oldList ++ nowList) := by
  intro e he
  rw [mem_uniqueSorted]
  exact ⟨(h e he).1, e, List.mem_append_left _ he, (h e he).2⟩

/-- Claim C3, at an inventory of two entries and a scan that finds one of them and
a new name. -/
theorem C3_scan_never_shrinks_witness :
    (∀ e, e ∈ [str "a.x", str "b.x"] → e ≠ [] ∧ TrimSpace e = e)
    ∧ ∀ e, e ∈ [str "a.x", str "b.x"] →
        e ∈ uniqueSorted ([str "a.x", str "b.x"] ++ [str "b.x", str "c.x"]) :=
  ⟨by decide, C3_scan_never_shrinks [str "a.x", str "b.x"] [str "b.x", str "c.x"] (by decide)⟩

/-- Claim C4. The snapshot is a subset of the inventory written in the same scan: with
`nowList = uniqueSorted raw`, every element of `added`, the first component of
`diff oldList nowList`, is an element of `uniqueSorted (oldList ++ nowList)`. -/
theorem C4_snapshot_subset_of_inventory (oldList raw : List GoString) (e : GoString)
    (h : e ∈ (diff oldList (uniqueSorted raw)).1) :
    e ∈ uniqueSorted (oldList ++ uniqueSorted raw) := by
  rw [diff_eq_filter] at h
  have hn : e ∈ uniqueSorted raw := (List.mem_filter.1 h).1
  have ht := mem_uniqueSorted_trim raw e hn
  rw [mem_uniqueSorted]
  exact ⟨ht.1, e, List.mem_append_right _ hn, ht.2⟩

/-- Claim C4, at the scenario of the specification: inventory `a.x`, `b.x`, and an
enumeration of `b.x`, `c.x`, `a.x`. -/
theorem C4_snapshot_subset_of_inventory_witness :
    str "c.x" ∈ (diff [str "a.x", str "b.x"]
        (uniqueSorted [str "b.x", str "c.x", str "a.x"])).1
    ∧ str "c.x" ∈ uniqueSorted ([str "a.x", str "b.x"]
        ++ uniqueSorted [str "b.x", str "c.x", str "a.x"]) :=
  ⟨by decide, C4_snapshot_subset_of_inventory [str "a.x", str "b.x"]
    [str "b.x", str "c.x", str "a.x"] (str "c.x") (by decide)⟩

/-! ### Persistence: `writeLines`, `readLines` -/

theorem str_newline : str "\n" = [(0x0A : Byte)] := by decide

theorem writeLines_loop (lines : List GoString) :
    ∀ f : GoString,
      lines.foldl (fun f l => f ++ (l ++ str "\n")) f = f ++ writeLines lines := by
  unfold writeLines
  induction lines with
  | nil => intro f; simp
  | cons a l ih =>
    intro f
    simp only [List.foldl_cons, List.nil_append]
    rw [ih (f ++ (a ++ str "\n")), ih (a ++ str "\n")]
    simp

theorem writeLines_nil : writeLines [] = [] := rfl

theorem writeLines_cons (a : GoString) (l : List GoString) :
    writeLines (a :: l) = a ++ (0x0A : Byte) :: writeLines l := by
  have := writeLines_loop l (a ++ str "\n")
  unfold writeLines at this ⊢
  simp only [List.foldl_cons, List.nil_append]
  rw [this, str_newline]
  simp

/-- The scanner on a line without a newline in it, followed by a newline. -/
theorem scanLines_line (e rest : GoString) (he : (0x0A : Byte) ∉ e) :
    ∀ cur : GoString,
      scanLines cur (e ++ (0x0A : Byte) :: rest) =
        if (cur ++ e).length ≥ MaxScanTokenSize then ([], true)
        else (dropCR (cur ++ e) :: (scanLines [] rest).1, (scanLines [] rest).2) := by
  induction e with
  | nil => intro cur; simp [scanLines]
  | cons b e ih =>
    intro cur
    have hb : b ≠ 0x0A := fun h => he (by simp [h])
    have he' : (0x0A : Byte) ∉ e := fun h => he (List.mem_cons_of_mem _ h)
    rw [List.cons_append, scanLines, if_neg hb, ih he' (cur ++ [b])]
    simp

theorem dropCR_trimmed (e : GoString) (h : TrimSpace e = e) : dropCR e = e := by
  unfold dropCR
  split_ifs with hc
  · exfalso
    have hne : TrimSpace e ≠ [] := by
      rw [h]; intro h0; rw [h0] at hc; simp at hc
    have := TrimSpace_last e hne
    rw [h, hc.2] at this
    exact absurd this (by decide)
  · rfl

theorem scanLines_writeLines (l : List GoString)
    (h : ∀ e, e ∈ l → (0x0A : Byte) ∉ e ∧ e.length < MaxScanTokenSize) :
    scanLines [] (writeLines l) = (l.map dropCR, false) := by
  induction l with
  | nil => simp [writeLines_nil, scanLines]
  | cons a l ih =>
    have ha := h a (List.mem_cons_self _ _)
    rw [writeLines_cons, scanLines_line a _ ha.1 [], List.nil_append,
      if_neg (by omega), ih (fun e he => h e (List.mem_cons_of_mem _ he))]
    simp

theorem appendTrimmed_loop (toks : List GoString) :
    ∀ out : List GoString,
      toks.foldl appendTrimmed out
        = out ++ (toks.map TrimSpace).filter (fun s => decide (s ≠ [])) := by
  induction toks with
  | nil => intro out; simp
  | cons a l ih =>
    intro out
    simp only [List.foldl_cons, ih, appendTrimmed, List.map_cons]
    by_cases ha : TrimSpace a = []
    · simp [ha]
    · simp [ha]

/-- Every entry that `readLines` returns is non-empty and has no leading or trailing
white space. -/
theorem readLines_entries (p : File) (e : GoString) (he : e ∈ (readLines p).1) :
    e ≠ [] ∧ TrimSpace e = e := by
  cases p with
  | notExist => simp [readLines] at he
  | unreadable => simp [readLines] at he
  | content data =>
    simp only [readLines, appendTrimmed_loop, List.nil_append, List.mem_filter,
      List.mem_map, decide_eq_true_eq] at he
    obtain ⟨⟨t, _, rfl⟩, hne⟩ := he
    exact ⟨hne, TrimSpace_idem t⟩

theorem readLines_writeLines (l : List GoString)
    (h : ∀ e, e ∈ l → (0x0A : Byte) ∉ e ∧ e.length < MaxScanTokenSize)
    (ht : ∀ e, e ∈ l → e ≠ [] ∧ TrimSpace e = e) :
    readLines (.content (writeLines l)) = (l, none) := by
  simp only [readLines, scanLines_writeLines l h, appendTrimmed_loop, List.nil_append]
  have h1 : l.map dropCR = l := by
    conv_rhs => rw [← List.map_id l]
    apply List.map_congr_left
    intro e he
    exact dropCR_trimmed e (ht e he).2
  have h2 : l.map TrimSpace = l := by
    conv_rhs => rw [← List.map_id l]
    apply List.map_congr_left
    intro e he
    exact (ht e he).2
  rw [h1, h2]
  have h3 : l.filter (fun s => decide (s ≠ [])) = l := by
    rw [List.filter_eq_self]
    intro e he
    simpa using (ht e he).1
  rw [h3]
  simp

/-- A line of `MaxScanTokenSize` bytes or more is not read back: the scanner stops with
`ErrTooLong`. -/
theorem readLines_long_entry (e : GoString) (l : List GoString) (he : (0x0A : Byte) ∉ e)
    (hl : MaxScanTokenSize ≤ e.length) :
    readLines (.content (writeLines (e :: l))) = ([], some .tooLong) := by
  simp only [readLines, writeLines_cons, scanLines_line e _ he [], List.nil_append]
  rw [if_pos hl]
  simp

/-- What `scanOne` leaves behind on success: the inventory is strictly ascending, holds
every entry read from the old inventory and every name of the snapshot, and is what the
inventory file is written from. -/
theorem scanOne_inventory (p : File) (cmd : Option GoString) (r : Scan)
    (h : scanOne p cmd = .ok r) :
    List.Sorted (fun a b => a < b) r.merged
    ∧ (∀ e, e ∈ (readLines p).1 → e ∈ r.merged)
    ∧ (∀ e, e ∈ r.added → e ∈ r.merged)
    ∧ r.inventory = .content (writeLines r.merged) := by
  unfold scanOne at h
  rcases hrl : readLines p with ⟨oldList, _ | err⟩
  · rw [hrl] at h
    cases cmd with
    | none => simp at h
    | some out =>
      simp only [Except.ok.injEq] at h
      subst h
      refine ⟨uniqueSorted_sorted _, ?_, ?_, rfl⟩
      · intro e he
        have ht : e ≠ [] ∧ TrimSpace e = e := readLines_entries p e (by rw [hrl]; exact he)
        exact (mem_uniqueSorted _ e).2 ⟨ht.1, e, List.mem_append_left _ he, ht.2⟩
      · intro e he
        simp only [runSubfinder, diff_eq_filter] at he
        have hn := (List.mem_filter.1 he).1
        have ht := mem_uniqueSorted_trim _ e hn
        exact (mem_uniqueSorted _ e).2 ⟨ht.1, e, List.mem_append_right _ hn, ht.2⟩
  · rw [hrl] at h
    simp at h

/-! ### A second scan -/

theorem stripFront_drop : ∀ (fuel : Nat) (s : GoString), ∃ k, stripFront fuel s = s.drop k := by
  intro fuel
  induction fuel with
  | zero => intro s; exact ⟨0, rfl⟩
  | succ n ih =>
    intro s
    simp only [stripFront]
    split_ifs
    · exact ⟨0, rfl⟩
    · obtain ⟨k, hk⟩ := ih (s.drop (spaceWidth s))
      exact ⟨spaceWidth s + k, by rw [hk, List.drop_drop]⟩

/-- The bytes of `TrimSpace s` are bytes of `s`, and there are no more of them. -/
theorem TrimSpace_sub (s : GoString) :
    (∀ x, x ∈ TrimSpace s → x ∈ s) ∧ (TrimSpace s).length ≤ s.length := by
  rw [TrimSpace_eq]
  unfold trimSpec
  obtain ⟨k, hk⟩ := stripFront_drop s.length s
  have hp := stripBack_initial (stripFront s.length s).length (stripFront s.length s)
  rw [hk] at hp ⊢
  constructor
  · intro x hx
    exact List.mem_of_mem_drop (hp.subset hx)
  · exact le_trans hp.length_le (by rw [List.length_drop]; omega)

theorem dropCR_sub (d : GoString) :
    (∀ x, x ∈ dropCR d → x ∈ d) ∧ (dropCR d).length ≤ d.length := by
  unfold dropCR
  split_ifs
  · exact ⟨fun x hx => List.mem_of_mem_take hx, by rw [List.length_take]; omega⟩
  · exact ⟨fun x hx => hx, le_refl _⟩

/-- No token of the scanner has a newline in it or reaches `MaxScanTokenSize`. -/
theorem scanLines_tokens (data : GoString) :
    ∀ cur : GoString, (0x0A : Byte) ∉ cur →
      ∀ t, t ∈ (scanLines cur data).1 → (0x0A : Byte) ∉ t ∧ t.length < MaxScanTokenSize := by
  induction data with
  | nil =>
    intro cur hcur t ht
    simp only [scanLines] at ht
    split_ifs at ht with h1 h2
    · simp at ht
    · simp at ht
    · rw [List.mem_singleton.1 ht]
      exact ⟨fun h => hcur ((dropCR_sub cur).1 _ h),
        lt_of_le_of_lt (dropCR_sub cur).2 (by omega)⟩
  | cons b rest ih =>
    intro cur hcur t ht
    simp only [scanLines] at ht
    split_ifs at ht with h1 h2
    · simp at ht
    · rcases List.mem_cons.1 ht with h | h
      · rw [h]
        exact ⟨fun h => hcur ((dropCR_sub cur).1 _ h),
          lt_of_le_of_lt (dropCR_sub cur).2 (by omega)⟩
      · exact ih [] (by simp) t h
    · refine ih (cur ++ [b]) ?_ t ht
      intro h
      rcases List.mem_append.1 h with h | h
      · exact hcur h
      · exact h1 (List.mem_singleton.1 h).symm

/-- The trimmed lines of a text have no newline in them and stay below
`MaxScanTokenSize`. -/
theorem trimmed_lines_short (data : GoString) (e : GoString)
    (he : e ∈ (scanLines [] data).1.foldl appendTrimmed []) :
    (0x0A : Byte) ∉ e ∧ e.length < MaxScanTokenSize := by
  simp only [appendTrimmed_loop, List.nil_append, List.mem_filter, List.mem_map] at he
  obtain ⟨⟨t, ht, rfl⟩, _⟩ := he
  have h := scanLines_tokens data [] (by simp) t ht
  exact ⟨fun hx => h.1 ((TrimSpace_sub t).1 _ hx), lt_of_le_of_lt (TrimSpace_sub t).2 h.2⟩

theorem readLines_short (p : File) (e : GoString) (he : e ∈ (readLines p).1) :
    (0x0A : Byte) ∉ e ∧ e.length < MaxScanTokenSize := by
  cases p with
  | notExist => simp [readLines] at he
  | unreadable => simp [readLines] at he
  | content data => exact trimmed_lines_short data e he

theorem runSubfinder_short (out : GoString) (e : GoString) (he : e ∈ runSubfinder out) :
    (0x0A : Byte) ∉ e ∧ e.length < MaxScanTokenSize := by
  unfold runSubfinder at he
  obtain ⟨_, e', he', rfl⟩ := (mem_uniqueSorted _ e).1 he
  have h := trimmed_lines_short out e' he'
  exact ⟨fun hx => h.1 ((TrimSpace_sub e').1 _ hx), lt_of_le_of_lt (TrimSpace_sub e').2 h.2⟩

theorem merge_merge (old now : List GoString) : merge (merge old now) now = merge old now := by
  apply uniqueSorted_ext
  intro x
  rw [mem_uniqueSorted, mem_uniqueSorted]
  constructor
  · rintro ⟨hx, e, he, rfl⟩
    rcases List.mem_append.1 he with he | he
    · have ht := mem_uniqueSorted_trim _ e he
      rw [ht.2]
      exact (mem_uniqueSorted _ e).1 he
    · exact ⟨hx, e, List.mem_append_right _ he, rfl⟩
  · rintro ⟨hx, e, he, rfl⟩
    rcases List.mem_append.1 he with he | he
    · have hm : TrimSpace e ∈ merge old now :=
        (mem_merge old now _).2 ⟨hx, e, List.mem_append_left _ he, rfl⟩
      exact ⟨hx, TrimSpace e, List.mem_append_left _ hm, TrimSpace_idem e⟩
    · exact ⟨hx, e, List.mem_append_right _ he, rfl⟩

theorem diff_merge_nil (old raw : List GoString) :
    (diff (merge old (uniqueSorted raw)) (uniqueSorted raw)).1 = [] := by
  rw [diff_eq_filter]
  simp only
  rw [List.filter_eq_nil_iff]
  intro a ha
  have ht := mem_uniqueSorted_trim raw a ha
  have : a ∈ merge old (uniqueSorted raw) :=
    (mem_merge _ _ a).2 ⟨ht.1, a, List.mem_append_right _ ha, ht.2⟩
  simpa using this

/-- A scan run again on the inventory it wrote, with the same output of subfinder,
finds nothing new and writes the same inventory. -/
theorem scanOne_twice (p : File) (out : GoString) (r : Scan)
    (h : scanOne p (some out) = .ok r) :
    scanOne r.inventory (some out)
      = .ok { merged := r.merged, added := [], inventory := r.inventory,
              snapshot := none } := by
  unfold scanOne at h
  rcases hrl : readLines p with ⟨oldList, _ | err⟩
  · rw [hrl] at h
    simp only [Except.ok.injEq] at h
    subst h
    have hback : readLines (.content (writeLines (uniqueSorted (oldList ++ runSubfinder out))))
        = (uniqueSorted (oldList ++ runSubfinder out), none) := by
      apply readLines_writeLines _ _ (mem_uniqueSorted_trim _)
      intro e he
      obtain ⟨_, e', he', rfl⟩ := (mem_uniqueSorted _ e).1 he
      have hs : (0x0A : Byte) ∉ e' ∧ e'.length < MaxScanTokenSize := by
        rcases List.mem_append.1 he' with h1 | h1
        · exact readLines_short p e' (by rw [hrl]; exact h1)
        · exact runSubfinder_short out e' h1
      exact ⟨fun hx => hs.1 ((TrimSpace_sub e').1 _ hx),
        lt_of_le_of_lt (TrimSpace_sub e').2 hs.2⟩
    have hm := merge_merge oldList (runSubfinder out)
    have hd := diff_merge_nil oldList ((scanLines [] out).1.foldl appendTrimmed [])
    unfold merge at hm hd
    unfold scanOne
    simp only [hback]
    rw [hm]
    unfold runSubfinder
    simp only [hd, List.length_nil, lt_self_iff_false, if_false]
  · rw [hrl] at h
    simp at h

/-- Claim C5. The inventory merge is idempotent: for all `old` and `now`,
`merge (merge old now) now = merge old now`; with `now = uniqueSorted raw`, as a scan
enumerates it, the diff against the merged inventory has no added names; and a second
scan, run on the inventory file that the first one wrote and enumerating the same
names, adds nothing and writes the same inventory. -/
theorem C5_merge_idempotent (old now raw : List GoString) (p : File) (out : GoString) :
    merge (merge old now) now = merge old now
    ∧ (diff (merge old (uniqueSorted raw)) (uniqueSorted raw)).1 = []
    ∧ (∀ r, scanOne p (some out) = .ok r →
        scanOne r.inventory (some out)
          = .ok { merged := r.merged, added := [], inventory := r.inventory,
                  snapshot := none }) :=
  ⟨merge_merge old now, diff_merge_nil old raw, fun r h => scanOne_twice p out r h⟩

/-- Claim C5, at the scenario of an inventory `a.x`, `b.x` and an enumeration `b.x`,
`c.x`, `a.x`: the second scan reads back the three names and adds nothing. -/
theorem C5_merge_idempotent_witness :
    scanOne (.content (str "a.x\nb.x\n")) (some (str "b.x\nc.x\na.x\n"))
      = .ok { merged := [str "a.x", str "b.x", str "c.x"], added := [str "c.x"],
              inventory := .content (str "a.x\nb.x\nc.x\n"),
              snapshot := some (str "c.x\n") }
    ∧ scanOne (.content (str "a.x\nb.x\nc.x\n")) (some (str "b.x\nc.x\na.x\n"))
      = .ok { merged := [str "a.x", str "b.x", str "c.x"], added := [],
              inventory := .content (str "a.x\nb.x\nc.x\n"), snapshot := none } :=
  ⟨rfl, (C5_merge_idempotent [] [] [] (.content (str "a.x\nb.x\n"))
      (str "b.x\nc.x\na.x\n")).2.2
    { merged := [str "a.x", str "b.x", str "c.x"], added := [str "c.x"],
      inventory := .content (str "a.x\nb.x\nc.x\n"), snapshot := some (str "c.x\n") } rfl⟩

/-- Claim C6, as stated, fails: an entry with a newline in it is written as two lines
and read back as two entries. -/
theorem C6_entry_with_newline_splits :
    readLines (.content (writeLines (uniqueSorted [str "a\nb"])))
      ≠ (uniqueSorted [str "a\nb"], none) := by
  decide

/-- Claim C6, amended. Load undoes save when no entry of `uniqueSorted S` has a newline
in it and every entry is shorter than the largest line that the scanner of `readLines`
takes: reading back the file written from `uniqueSorted S` returns `uniqueSorted S`
and no error. -/
theorem C6_roundtrip (S : List GoString)
    (h : ∀ e, e ∈ uniqueSorted S → (0x0A : Byte) ∉ e ∧ e.length < MaxScanTokenSize) :
    readLines (.content (writeLines (uniqueSorted S))) = (uniqueSorted S, none) :=
  readLines_writeLines _ h (mem_uniqueSorted_trim S)

/-- Claim C6, amended, at a list with a duplicate, surrounding white space and an empty
string. -/
theorem C6_roundtrip_witness :
    (∀ e, e ∈ uniqueSorted [str " b.x ", str "a.x", str "", str "b.x"] →
        (0x0A : Byte) ∉ e ∧ e.length < MaxScanTokenSize)
    ∧ readLines (.content (writeLines
          (uniqueSorted [str " b.x ", str "a.x", str "", str "b.x"])))
        = (uniqueSorted [str " b.x ", str "a.x", str "", str "b.x"], none) :=
  ⟨by decide, C6_roundtrip [str " b.x ", str "a.x", str "", str "b.x"] (by decide)⟩

/-! ### Notification chunks -/

theorem chunkStep_length (maxLen : Nat) (start : GoString) (r : GoString × List GoString)
    (ln : GoString) (hln : start.length + ln.length + 1 ≤ maxLen)
    (h1 : r.1.length ≤ maxLen) (h2 : ∀ c, c ∈ r.2 → c.length ≤ maxLen) :
    (chunkStep maxLen start r ln).1.length ≤ maxLen
    ∧ ∀ c, c ∈ (chunkStep maxLen start r ln).2 → c.length ≤ maxLen := by
  unfold chunkStep
  by_cases h : r.1.length + ln.length + 1 > maxLen
  · simp only [if_pos h, List.length_append, str_newline, List.length_singleton]
    refine ⟨by omega, ?_⟩
    intro c hc
    rcases List.mem_append.1 hc with hc | hc
    · exact h2 c hc
    · rw [List.mem_singleton.1 hc]; exact h1
  · simp only [if_neg h, List.length_append, str_newline, List.length_singleton]
    exact ⟨by omega, h2⟩

theorem chunkLoop_length (maxLen : Nat) (start : GoString) (lines : List GoString)
    (hl : ∀ ln, ln ∈ lines → start.length + ln.length + 1 ≤ maxLen) :
    ∀ r : GoString × List GoString, r.1.length ≤ maxLen →
      (∀ c, c ∈ r.2 → c.length ≤ maxLen) →
      (lines.foldl (chunkStep maxLen start) r).1.length ≤ maxLen
      ∧ ∀ c, c ∈ (lines.foldl (chunkStep maxLen start) r).2 → c.length ≤ maxLen := by
  induction lines with
  | nil => intro r h1 h2; exact ⟨h1, h2⟩
  | cons a l ih =>
    intro r h1 h2
    have hs := chunkStep_length maxLen start r a (hl a (List.mem_cons_self _ _)) h1 h2
    exact ih (fun ln h => hl ln (List.mem_cons_of_mem _ h)) _ hs.1 hs.2

theorem buildChunks_length (maxLen : Nat) (start : GoString) (lines : List GoString)
    (hne : lines ≠ [])
    (hl : ∀ ln, ln ∈ lines → start.length + ln.length + 1 ≤ maxLen) :
    ∀ c, c ∈ buildChunks maxLen start lines → c.length ≤ maxLen := by
  have hstart : start.length ≤ maxLen := by
    rcases lines with _ | ⟨a, l⟩
    · exact absurd rfl hne
    · have := hl a (List.mem_cons_self _ _); omega
  have h := chunkLoop_length maxLen start lines hl (start, []) hstart (by simp)
  intro c hc
  unfold buildChunks at hc
  simp only at hc
  split_ifs at hc
  · rcases List.mem_append.1 hc with hc | hc
    · exact h.2 c hc
    · rw [List.mem_singleton.1 hc]; exact h.1
  · exact h.2 c hc

/-- Claim C7. Chunks respect the limit of the channel: when every line satisfies
`len(title) + 1 + len(line) + 1 <= 1800`, every chunk that `postDiscord` builds has at
most 1800 bytes, and when every line satisfies the same with 3900, every chunk that
`postTelegram` builds has at most 3900 bytes. -/
theorem C7_chunks_within_limit (client : Client) (webhook botToken chatID title : GoString)
    (lines : List GoString) :
    ((∀ ln, ln ∈ lines → title.length + 1 + ln.length + 1 ≤ 1800) →
      ∀ c, c ∈ (postDiscord client webhook title lines).chunks → c.length ≤ 1800)
    ∧ ((∀ ln, ln ∈ lines → title.length + 1 + ln.length + 1 ≤ 3900) →
      ∀ c, c ∈ (postTelegram client botToken chatID title lines).chunks →
        c.length ≤ 3900) := by
  constructor
  · intro hl c hc
    unfold postDiscord at hc
    simp only at hc
    split_ifs at hc with hg
    · simp at hc
    · have hne : lines ≠ [] := by
        intro h0; apply hg; right; rw [h0]; rfl
      refine buildChunks_length 1800 _ lines hne ?_ c hc
      intro ln hln
      have := hl ln hln
      simp only [List.length_append, str_newline, List.length_singleton]
      omega
  · intro hl c hc
    unfold postTelegram at hc
    simp only at hc
    split_ifs at hc with hg
    · simp at hc
    · have hne : lines ≠ [] := by
        intro h0; apply hg; right; right; rw [h0]; rfl
      refine buildChunks_length 3900 _ lines hne ?_ c hc
      intro ln hln
      have := hl ln hln
      simp only [List.length_append, str_newline, List.length_singleton]
      omega

/-- Claim C7, at a title of one byte and three lines of 900 bytes, which make three
chunks on Discord and one on Telegram. -/
theorem C7_chunks_within_limit_witness :
    ((∀ ln, ln ∈ List.replicate 3 (List.replicate 900 (0x61 : Byte)) →
        (str "t").length + 1 + ln.length + 1 ≤ 1800)
      ∧ ∀ c, c ∈ (postDiscord (fun _ _ => .status 204) (str "https://x") (str "t")
          (List.replicate 3 (List.replicate 900 (0x61 : Byte)))).chunks → c.length ≤ 1800)
    ∧ ((∀ ln, ln ∈ List.replicate 3 (List.replicate 900 (0x61 : Byte)) →
        (str "t").length + 1 + ln.length + 1 ≤ 3900)
      ∧ ∀ c, c ∈ (postTelegram (fun _ _ => .status 200) (str "tok") (str "42") (str "t")
          (List.replicate 3 (List.replicate 900 (0x61 : Byte)))).chunks → c.length ≤ 3900) :=
  ⟨⟨by intro ln h; rw [List.eq_of_mem_replicate h, List.length_replicate]; decide,
    (C7_chunks_within_limit (fun _ _ => .status 204) (str "https://x") (str "tok") (str "42")
      (str "t") (List.replicate 3 (List.replicate 900 (0x61 : Byte)))).1
      (by intro ln h; rw [List.eq_of_mem_replicate h, List.length_replicate]; decide)⟩,
   ⟨by intro ln h; rw [List.eq_of_mem_replicate h, List.length_replicate]; decide,
    (C7_chunks_within_limit (fun _ _ => .status 200) (str "https://x") (str "tok") (str "42")
      (str "t") (List.replicate 3 (List.replicate 900 (0x61 : Byte)))).2
      (by intro ln h; rw [List.eq_of_mem_replicate h, List.length_replicate]; decide)⟩⟩

theorem chunkStep_cover (maxLen : Nat) (start : GoString) (r : GoString × List GoString)
    (ln : GoString) (body : GoString)
    (h1 : ∀ c, c ∈ r.2 ++ [r.1] → start <+: c)
    (h2 : ((r.2 ++ [r.1]).map (fun c => c.drop start.length)).flatten = body) :
    (∀ c, c ∈ (chunkStep maxLen start r ln).2 ++ [(chunkStep maxLen start r ln).1] →
        start <+: c)
    ∧ (((chunkStep maxLen start r ln).2 ++ [(chunkStep maxLen start r ln).1]).map
        (fun c => c.drop start.length)).flatten = body ++ (ln ++ str "\n") := by
  have hcur : start <+: r.1 := h1 r.1 (by simp)
  have hlen : start.length ≤ r.1.length := hcur.length_le
  unfold chunkStep
  by_cases h : r.1.length + ln.length + 1 > maxLen
  · simp only [if_pos h]
    constructor
    · intro c hc
      rcases List.mem_append.1 hc with hc | hc
      · exact h1 c hc
      · rw [List.mem_singleton.1 hc]; exact List.prefix_append _ _
    · rw [List.map_append, List.flatten_append, h2]
      simp
  · simp only [if_neg h]
    constructor
    · intro c hc
      rcases List.mem_append.1 hc with hc | hc
      · exact h1 c (List.mem_append_left _ hc)
      · rw [List.mem_singleton.1 hc]
        exact hcur.trans (List.prefix_append _ _)
    · rw [List.map_append, List.flatten_append] at h2 ⊢
      rw [← h2]
      simp [List.drop_append_of_le_length hlen]

theorem chunkLoop_cover (maxLen : Nat) (start : GoString) (lines : List GoString) :
    ∀ (r : GoString × List GoString) (body : GoString),
      (∀ c, c ∈ r.2 ++ [r.1] → start <+: c) →
      ((r.2 ++ [r.1]).map (fun c => c.drop start.length)).flatten = body →
      (∀ c, c ∈ (lines.foldl (chunkStep maxLen start) r).2
          ++ [(lines.foldl (chunkStep maxLen start) r).1] → start <+: c)
      ∧ (((lines.foldl (chunkStep maxLen start) r).2
          ++ [(lines.foldl (chunkStep maxLen start) r).1]).map
            (fun c => c.drop start.length)).flatten
          = body ++ (lines.map (fun ln => ln ++ str "\n")).flatten := by
  induction lines with
  | nil =>
    intro r body h1 h2
    refine ⟨h1, ?_⟩
    simp only [List.foldl_nil, List.map_nil, List.flatten_nil, List.append_nil]
    exact h2
  | cons a l ih =>
    intro r body h1 h2
    have hs := chunkStep_cover maxLen start r a body h1 h2
    have := ih _ _ hs.1 hs.2
    simpa [List.append_assoc] using this

/-- With a title that is not all white space, `buildChunks` keeps the last chunk: the
chunks start with the title and a newline, and their remainders are the lines. -/
theorem buildChunks_cover (maxLen : Nat) (title : GoString) (lines : List GoString)
    (ht : TrimSpace title ≠ []) :
    (∀ c, c ∈ buildChunks maxLen (title ++ str "\n") lines → (title ++ str "\n") <+: c)
    ∧ ((buildChunks maxLen (title ++ str "\n") lines).map
        (fun c => c.drop (title ++ str "\n").length)).flatten
        = (lines.map (fun ln => ln ++ str "\n")).flatten := by
  have h := chunkLoop_cover maxLen (title ++ str "\n") lines (title ++ str "\n", []) []
    (by simp) (by simp)
  have hcur := h.1 (lines.foldl (chunkStep maxLen (title ++ str "\n")) (title ++ str "\n", [])).1
    (by simp)
  have hkeep : TrimSpace (lines.foldl (chunkStep maxLen (title ++ str "\n"))
      (title ++ str "\n", [])).1 ≠ [] := by
    obtain ⟨rest, hrest⟩ := hcur
    rw [← hrest, str_newline, List.append_assoc, List.singleton_append]
    exact TrimSpace_append_newline title rest ht
  unfold buildChunks
  simp only [if_pos hkeep]
  simpa using h

/-- The chunks of `postDiscord` under an empty title: a line that is not white space
keeps its chunk, also when a blank line follows it in the same chunk; a blank line
alone loses it; and a rejected webhook builds nothing. -/
theorem postDiscord_trace :
    (postDiscord (fun _ _ => .status 204) (str "https://x") (str "") [str "a"]).chunks
      = [str "\na\n"]
    ∧ (postDiscord (fun _ _ => .status 204) (str "https://x") (str "")
        [str "a", str ""]).chunks = [str "\na\n\n"]
    ∧ (postDiscord (fun _ _ => .status 204) (str "https://x") (str "") [str ""]).chunks
      = []
    ∧ (postDiscord (fun _ _ => .status 204) (str "x") (str "t") [str "a"]).chunks = [] := by
  decide

/-! ### Webhooks and credentials -/

theorem HasPrefix_iff (s pfx : GoString) : HasPrefix s pfx = true ↔ pfx <+: s := by
  unfold HasPrefix
  rw [decide_eq_true_iff]
  constructor
  · rintro ⟨_, h⟩
    rw [← h]; exact List.take_prefix _ _
  · rintro ⟨t, rfl⟩
    simp

/-- Claim C9. For every string `s`, `cleanWebhook s` is empty exactly when the trimmed
`s` is empty, is one of the two placeholders, or starts with neither `http://` nor
`https://`; otherwise it is the trimmed `s`.  For a webhook that is rejected so,
`postDiscord` builds no chunk, sends nothing and returns no error, whatever the title
and the lines. -/
theorem C9_cleanWebhook_rejects (s : GoString) :
    (cleanWebhook s = [] ↔
      (TrimSpace s = [] ∨ TrimSpace s = str "YOUR_WEBHOOK_URL_HERE"
        ∨ TrimSpace s = str "YOUR_WEBHOOK_URL"
        ∨ (¬ (str "http://" <+: TrimSpace s) ∧ ¬ (str "https://" <+: TrimSpace s))))
    ∧ (cleanWebhook s ≠ [] → cleanWebhook s = TrimSpace s)
    ∧ (cleanWebhook s = [] → ∀ (client : Client) (title : GoString) (lines : List GoString),
        postDiscord client s title lines = ⟨[], [], none⟩) := by
  have hdef : cleanWebhook s =
      if TrimSpace s = [] ∨ TrimSpace s = str "YOUR_WEBHOOK_URL_HERE"
          ∨ TrimSpace s = str "YOUR_WEBHOOK_URL" then []
      else if ¬ (HasPrefix (TrimSpace s) (str "http://")
          ∨ HasPrefix (TrimSpace s) (str "https://")) then []
      else TrimSpace s := rfl
  refine ⟨?_, ?_, ?_⟩
  · rw [hdef]
    by_cases h1 : TrimSpace s = [] ∨ TrimSpace s = str "YOUR_WEBHOOK_URL_HERE"
        ∨ TrimSpace s = str "YOUR_WEBHOOK_URL"
    · rw [if_pos h1]
      simp only [true_iff]
      tauto
    · rw [if_neg h1]
      by_cases h2 : ¬ (HasPrefix (TrimSpace s) (str "http://")
          ∨ HasPrefix (TrimSpace s) (str "https://"))
      · rw [if_pos h2]
        simp only [true_iff]
        right; right; right
        rw [← HasPrefix_iff, ← HasPrefix_iff]
        tauto
      · rw [if_neg h2]
        constructor
        · intro h; exact absurd (Or.inl h) h1
        · rintro (h | h | h | ⟨h3, h4⟩)
          · exact h
          · exact absurd (Or.inr (Or.inl h)) h1
          · exact absurd (Or.inr (Or.inr h)) h1
          · rw [← HasPrefix_iff] at h3 h4
            exact absurd (by tauto) h2
  · intro h
    rw [hdef] at h ⊢
    split_ifs at h ⊢ with h1 h2
    all_goals first | rfl | exact absurd rfl h
  · intro h client title lines
    unfold postDiscord
    simp only [h, true_or, if_true]

/-- Claim C9, at the placeholder with white space around it. -/
theorem C9_cleanWebhook_rejects_witness :
    cleanWebhook (str " YOUR_WEBHOOK_URL_HERE\n") = []
    ∧ postDiscord (fun _ _ => .status 204) (str " YOUR_WEBHOOK_URL_HERE\n") (str "t")
        [str "a"] = ⟨[], [], none⟩ :=
  ⟨by decide,
    (C9_cleanWebhook_rejects (str " YOUR_WEBHOOK_URL_HERE\n")).2.2 (by decide)
      (fun _ _ => .status 204) (str "t") [str "a"]⟩

/-- Claim C10. Credential resolution takes the environment first, then the config file,
then nothing.  `getDiscordWebhook` returns the cleaned environment URL when that is
non-empty, else the cleaned config URL, else the empty string; `getTelegram` returns
the trimmed environment token and chat id when both are non-empty, else the trimmed
config pair, else two empty strings; `getOpenAIKey` returns the trimmed environment key
when that is non-empty, else the trimmed config key, else the empty string.  When the
environment supplies a credential, the result is the same for every config. -/
theorem C10_credentials_environment_first (env : Env) (cfg : Option Config) :
    -- Discord
    (cleanWebhook (env "DISCORD_WEBHOOK_URL") ≠ [] →
        ∀ cfg' : Option Config,
          getDiscordWebhook env cfg = cleanWebhook (env "DISCORD_WEBHOOK_URL")
          ∧ getDiscordWebhook env cfg' = getDiscordWebhook env cfg)
    ∧ (cleanWebhook (env "DISCORD_WEBHOOK_URL") = [] →
        (∀ c, cfg = some c → getDiscordWebhook env cfg = cleanWebhook c.DiscordWebhookURL)
        ∧ (cfg = none → getDiscordWebhook env cfg = []))
    -- Telegram
    ∧ (TrimSpace (env "TELEGRAM_BOT_TOKEN") ≠ [] ∧ TrimSpace (env "TELEGRAM_CHAT_ID") ≠ [] →
        ∀ cfg' : Option Config,
          getTelegram env cfg
            = (TrimSpace (env "TELEGRAM_BOT_TOKEN"), TrimSpace (env "TELEGRAM_CHAT_ID"))
          ∧ getTelegram env cfg' = getTelegram env cfg)
    ∧ (¬ (TrimSpace (env "TELEGRAM_BOT_TOKEN") ≠ []
          ∧ TrimSpace (env "TELEGRAM_CHAT_ID") ≠ []) →
        (∀ c, cfg = some c → getTelegram env cfg
            = (TrimSpace c.TelegramBotToken, TrimSpace c.TelegramChatID))
        ∧ (cfg = none → getTelegram env cfg = ([], [])))
    -- OpenAI
    ∧ (TrimSpace (env "OPENAI_API_KEY") ≠ [] →
        ∀ cfg' : Option Config,
          getOpenAIKey env cfg = TrimSpace (env "OPENAI_API_KEY")
          ∧ getOpenAIKey env cfg' = getOpenAIKey env cfg)
    ∧ (TrimSpace (env "OPENAI_API_KEY") = [] →
        (∀ c, cfg = some c → getOpenAIKey env cfg = TrimSpace c.OpenAIAPIKey)
        ∧ (cfg = none → getOpenAIKey env cfg = [])) := by
  refine ⟨?_, ?_, ?_, ?_, ?_, ?_⟩
  · intro h cfg'
    simp only [getDiscordWebhook, if_pos h, and_self]
  · intro h
    constructor
    · intro c hc; subst hc
      simp only [getDiscordWebhook, h, ne_eq, not_true_eq_false, if_false]
    · intro hc; subst hc
      simp only [getDiscordWebhook, h, ne_eq, not_true_eq_false, if_false]
  · intro h cfg'
    simp only [getTelegram, if_pos h, and_self]
  · intro h
    constructor
    · intro c hc; subst hc
      simp only [getTelegram, if_neg h]
    · intro hc; subst hc
      simp only [getTelegram, if_neg h]
  · intro h cfg'
    simp only [getOpenAIKey, if_pos h, and_self]
  · intro h
    constructor
    · intro c hc; subst hc
      simp only [getOpenAIKey, h, ne_eq, not_true_eq_false, if_false]
    · intro hc; subst hc
      simp only [getOpenAIKey, h, ne_eq, not_true_eq_false, if_false]

/-- Claim C10, at an environment that supplies the webhook and only half of the
Telegram pair: the webhook comes from the environment, the Telegram pair and the API
key from the config. -/
theorem C10_credentials_environment_first_witness :
    (cleanWebhook (sampleEnv "DISCORD_WEBHOOK_URL") ≠ []
      ∧ getDiscordWebhook sampleEnv (some sampleConfig) = str "https://discord.example/hook"
      ∧ getDiscordWebhook sampleEnv none = getDiscordWebhook sampleEnv (some sampleConfig))
    ∧ (¬ (TrimSpace (sampleEnv "TELEGRAM_BOT_TOKEN") ≠ []
          ∧ TrimSpace (sampleEnv "TELEGRAM_CHAT_ID") ≠ [])
      ∧ getTelegram sampleEnv (some sampleConfig) = (str "cfgtoken", str "42"))
    ∧ (TrimSpace (sampleEnv "OPENAI_API_KEY") = []
      ∧ getOpenAIKey sampleEnv (some sampleConfig) = str "sk-config") :=
  ⟨⟨by decide,
      ((C10_credentials_environment_first sampleEnv (some sampleConfig)).1 (by decide)
        none).1.trans (by decide),
      ((C10_credentials_environment_first sampleEnv (some sampleConfig)).1 (by decide)
        none).2⟩,
    ⟨by decide,
      ((C10_credentials_environment_first sampleEnv (some sampleConfig)).2.2.2.1
        (by decide)).1 sampleConfig rfl |>.trans (by decide)⟩,
    ⟨by decide,
      ((C10_credentials_environment_first sampleEnv (some sampleConfig)).2.2.2.2.2
        (by decide)).1 sampleConfig rfl |>.trans (by decide)⟩⟩

/-! ### The summary -/

/-- Claim C11. `aiSummary` reports no error in its three short-circuit cases: with no
key it returns the empty string and makes no request, whatever the list of new names;
with a key and an empty list it returns the text `No new subdomains found.` and makes
no request; with a key, a non-empty list and an answer of status 429 it returns the
empty string.  With any other status of 300 or more, and with a status below 300 and
a body decoded to zero choices, it returns an error. -/
theorem C11_aiSummary_short_circuits (env : Env) (cfg : Option Config)
    (client : AIRequest → AIResponse) (decode : Decoder) (domain : GoString)
    (newSubs : List GoString) :
    (getOpenAIKey env cfg = [] →
      aiSummary env cfg client decode domain newSubs = ⟨[], [], none⟩)
    ∧ (getOpenAIKey env cfg ≠ [] → newSubs = [] →
      aiSummary env cfg client decode domain newSubs
        = ⟨[], str "No new subdomains found.", none⟩)
    ∧ (getOpenAIKey env cfg ≠ [] → newSubs ≠ [] → ∀ body,
      client (summaryRequest (getOpenAIKey env cfg) domain newSubs) = .answer 429 body →
      aiSummary env cfg client decode domain newSubs
        = ⟨[summaryRequest (getOpenAIKey env cfg) domain newSubs], [], none⟩)
    ∧ (getOpenAIKey env cfg ≠ [] → newSubs ≠ [] → ∀ code body,
      client (summaryRequest (getOpenAIKey env cfg) domain newSubs) = .answer code body →
      code ≥ 300 → code ≠ 429 →
      aiSummary env cfg client decode domain newSubs
        = ⟨[summaryRequest (getOpenAIKey env cfg) domain newSubs], [],
            some (.status code body)⟩)
    ∧ (getOpenAIKey env cfg ≠ [] → newSubs ≠ [] → ∀ code body,
      client (summaryRequest (getOpenAIKey env cfg) domain newSubs) = .answer code body →
      code < 300 → decode body = some [] →
      aiSummary env cfg client decode domain newSubs
        = ⟨[summaryRequest (getOpenAIKey env cfg) domain newSubs], [],
            some .noChoices⟩) := by
  have hlen : newSubs ≠ [] → ¬ newSubs.length = 0 := fun h h0 => h (List.length_eq_zero.1 h0)
  refine ⟨?_, ?_, ?_, ?_, ?_⟩
  · intro hk
    simp only [aiSummary, hk, if_true]
  · intro hk hn
    subst hn
    simp only [aiSummary, if_neg hk, List.length_nil, if_true]
  · intro hk hn body hc
    simp only [aiSummary, if_neg hk, if_neg (hlen hn), hc, if_true]
  · intro hk hn code body hc h300 h429
    simp only [aiSummary, if_neg hk, if_neg (hlen hn), hc, if_neg h429, if_pos h300]
  · intro hk hn code body hc h300 hd
    have h429 : ¬ code = 429 := by omega
    have hge : ¬ code ≥ 300 := by omega
    simp only [aiSummary, if_neg hk, if_neg (hlen hn), hc, if_neg h429, if_neg hge, hd,
      List.length_nil, if_true]

/-- Claim C11, at an environment without a key, with and without a key in the config,
and at answers of status 429, 500 and 200 with zero choices. -/
theorem C11_aiSummary_short_circuits_witness :
    (getOpenAIKey sampleEnv none = []
      ∧ aiSummary sampleEnv none (fun _ => .failed) (fun _ => none) (str "d.x")
          [str "a.d.x"] = ⟨[], [], none⟩)
    ∧ (getOpenAIKey sampleEnv (some sampleConfig) ≠ []
      ∧ aiSummary sampleEnv (some sampleConfig) (fun _ => .failed) (fun _ => none)
          (str "d.x") [] = ⟨[], str "No new subdomains found.", none⟩)
    ∧ ([str "a.d.x"] ≠ ([] : List GoString)
      ∧ (aiSummary sampleEnv (some sampleConfig) (fun _ => .answer 429 (str "slow down"))
          (fun _ => none) (str "d.x") [str "a.d.x"]).text = []
      ∧ (aiSummary sampleEnv (some sampleConfig) (fun _ => .answer 429 (str "slow down"))
          (fun _ => none) (str "d.x") [str "a.d.x"]).err = none)
    ∧ ((500 ≥ 300 ∧ 500 ≠ 429)
      ∧ (aiSummary sampleEnv (some sampleConfig) (fun _ => .answer 500 (str "oops"))
          (fun _ => none) (str "d.x") [str "a.d.x"]).err = some (.status 500 (str "oops")))
    ∧ (200 < 300
      ∧ (aiSummary sampleEnv (some sampleConfig) (fun _ => .answer 200 (str "ok"))
          (fun _ => some []) (str "d.x") [str "a.d.x"]).err = some .noChoices) :=
  ⟨⟨by decide,
      (C11_aiSummary_short_circuits sampleEnv none (fun _ => .failed) (fun _ => none)
        (str "d.x") [str "a.d.x"]).1 (by decide)⟩,
    ⟨by decide,
      (C11_aiSummary_short_circuits sampleEnv (some sampleConfig) (fun _ => .failed)
        (fun _ => none) (str "d.x") []).2.1 (by decide) rfl⟩,
    ⟨by decide,
      congrArg Summary.text
        ((C11_aiSummary_short_circuits sampleEnv (some sampleConfig)
          (fun _ => .answer 429 (str "slow down")) (fun _ => none) (str "d.x")
          [str "a.d.x"]).2.2.1 (by decide) (by decide) (str "slow down") rfl),
      congrArg Summary.err
        ((C11_aiSummary_short_circuits sampleEnv (some sampleConfig)
          (fun _ => .answer 429 (str "slow down")) (fun _ => none) (str "d.x")
          [str "a.d.x"]).2.2.1 (by decide) (by decide) (str "slow down") rfl)⟩,
    ⟨by decide,
      congrArg Summary.err
        ((C11_aiSummary_short_circuits sampleEnv (some sampleConfig)
          (fun _ => .answer 500 (str "oops")) (fun _ => none) (str "d.x")
          [str "a.d.x"]).2.2.2.1 (by decide) (by decide) 500 (str "oops") rfl (by decide)
          (by decide))⟩,
    ⟨by decide,
      congrArg Summary.err
        ((C11_aiSummary_short_circuits sampleEnv (some sampleConfig)
          (fun _ => .answer 200 (str "ok")) (fun _ => some []) (str "d.x")
          [str "a.d.x"]).2.2.2.2 (by decide) (by decide) 200 (str "ok") rfl (by decide)
          rfl)⟩⟩

/-- The summary on the way without a short circuit: a key from the config, two new
names, an answer of status 200 with one choice, whose content comes back trimmed. -/
theorem aiSummary_trace :
    (aiSummary sampleEnv (some sampleConfig) (fun _ => .answer 200 (str "ok"))
      (fun _ => some [str " - api: a.d.x \n"]) (str "d.x") [str "a.d.x", str "b.d.x"]).text
      = str "- api: a.d.x"
    ∧ (aiSummary sampleEnv (some sampleConfig) (fun _ => .failed) (fun _ => none)
      (str "d.x") [str "a.d.x"]).err = some .transport
    ∧ (aiSummary sampleEnv (some sampleConfig) (fun _ => .answer 200 (str "cut"))
      (fun _ => none) (str "d.x") [str "a.d.x"]).err = some .decode := by
  decide

/-! ### Traces -/

/-- The function `TrimSpace` on ASCII white space, on the no-break space and the
ideographic space, on bytes that are not UTF-8, and on a string of white space only. -/
theorem TrimSpace_trace :
    TrimSpace (str " \t a b \r\n") = str "a b"
    ∧ TrimSpace (str "\u00a0x y\u3000") = str "x y"
    ∧ TrimSpace ([0x20, 0xC2, 0x20, 0xE2, 0x80, 0x80] : GoString) = [0xC2]
    ∧ TrimSpace (str " \n\u2003") = [] := by
  decide

/-- The scenario of an inventory `a.x`, `b.x` and an enumeration `b.x`, `c.x`, `a.x`:
one new name, three names in the inventory, a snapshot of the new name. -/
theorem scanOne_trace :
    scanOne (.content (str "a.x\nb.x\n")) (some (str "b.x\nc.x\na.x\n"))
      = .ok { merged := [str "a.x", str "b.x", str "c.x"], added := [str "c.x"],
              inventory := .content (str "a.x\nb.x\nc.x\n"),
              snapshot := some (str "c.x\n") } := by
  rfl

/-- The scenario of no inventory file and an empty enumeration: nothing new, no
snapshot. -/
theorem scanOne_empty_trace :
    scanOne .notExist (some []) =
      .ok { merged := [], added := [], inventory := .content [], snapshot := none } := by
  rfl

/-- The chunking loop with a limit of eight bytes: a line that fills the chunk to the
limit stays in it, the next one opens a new chunk. -/
theorem buildChunks_trace :
    buildChunks 8 (str "t\n") [str "aa", str "bb", str "cc"]
      = [str "t\naa\nbb\n", str "t\ncc\n"] := by
  decide

end DomWatch
